import Mathlib

/-!
Verification of the compysition event layer (compysition/event.py): the event
data model, the per-family conversion registries, the class-synthesis logic of
`Event.convert`, the XML/JSON impedance helpers, the HTTP error/status model,
and the forgiving `lookup` traversal.  Python runtime values are embedded as
the inductive `PyVal`; XML element trees as `XmlTree`; the class hierarchy as
the enumeration `Cls` with its direct-bases table.
-/

set_option maxRecDepth 4096

namespace Compysition

/-- An lxml element tree: tag, attributes (in document order), child elements,
and optional text content.  This models the fragment of `etree._Element`
the event layer manipulates. -/
inductive XmlTree where
  | elem (tag : String) (attrs : List (String × String))
      (children : List XmlTree) (text : Option String)

/-- The universe of Python runtime values the event layer handles: `None`,
booleans, integers, strings, tuples, lists, dicts (association lists in
insertion order, with arbitrary-value keys as in Python), and lxml trees. -/
inductive PyVal where
  | none
  | bool (b : Bool)
  | int (n : Int)
  | str (s : String)
  | tuple (xs : List PyVal)
  | list (xs : List PyVal)
  | dict (entries : List (PyVal × PyVal))
  | xml (t : XmlTree)

mutual

/-- Structural equality on XML trees (used to model `==` where it could be
asked of elements; lxml actually compares by identity, which a pure embedding
approximates structurally). -/
def xmlBeq : XmlTree → XmlTree → Bool
  | .elem t1 a1 c1 x1, .elem t2 a2 c2 x2 =>
    t1 = t2 && a1 = a2 && x1 = x2 && xmlBeqList c1 c2

/-- Pointwise `xmlBeq` on child lists. -/
def xmlBeqList : List XmlTree → List XmlTree → Bool
  | [], [] => true
  | a :: as_, b :: bs => xmlBeq a b && xmlBeqList as_ bs
  | _, _ => false

end

mutual

/-- Python `==` on the embedded values.  Structural except that booleans
compare equal to the integers 0/1 (as in Python, where `True == 1`). -/
def pyBeq : PyVal → PyVal → Bool
  | .none, .none => true
  | .bool a, .bool b => a = b
  | .bool a, .int n => (if a then (1 : Int) else 0) = n
  | .int n, .bool a => n = (if a then (1 : Int) else 0)
  | .int a, .int b => a = b
  | .str a, .str b => a = b
  | .tuple a, .tuple b => pyBeqList a b
  | .list a, .list b => pyBeqList a b
  | .dict a, .dict b => pyBeqEntries a b
  | .xml a, .xml b => xmlBeq a b
  | _, _ => false

/-- Pointwise `pyBeq` on value lists. -/
def pyBeqList : List PyVal → List PyVal → Bool
  | [], [] => true
  | a :: as_, b :: bs => pyBeq a b && pyBeqList as_ bs
  | _, _ => false

/-- Pointwise `pyBeq` on dict entry lists. -/
def pyBeqEntries : List (PyVal × PyVal) → List (PyVal × PyVal) → Bool
  | [], [] => true
  | (k1, v1) :: as_, (k2, v2) :: bs => pyBeq k1 k2 && pyBeq v1 v2 && pyBeqEntries as_ bs
  | _, _ => false

end

/-- Python `d.get(key)` on a dict's entry list: the value at the first key
comparing `==` to `key`, if any. -/
def dictGet (entries : List (PyVal × PyVal)) (key : PyVal) : Option PyVal :=
  match entries with
  | [] => Option.none
  | (k, v) :: rest => if pyBeq k key then some v else dictGet rest key

/-- Python `key in d` on a dict's entry list. -/
def dictHasKey (entries : List (PyVal × PyVal)) (key : PyVal) : Bool :=
  (dictGet entries key).isSome

/-- The exception classes raised (directly or via Python's runtime) by the
embedded code paths. -/
inductive PyError where
  | invalidEventDataModification
  | nameError
  | indexError
  | valueError
  | typeError
  | keyError
  | stopIteration
  deriving DecidableEq, Repr

/-- The classes defined in event.py (plus `DataFormatInterface` and the two
format-interface mixins, which participate in `convert`'s base computation). -/
inductive Cls where
  | DataFormatInterface
  | XMLFormatInterface
  | JSONFormatInterface
  | Event
  | HttpEvent
  | XMLEvent
  | JSONEvent
  | JSONHttpEvent
  | XMLHttpEvent
  | LogEvent
  deriving DecidableEq, Repr

open Cls

/-- Direct base classes (`__bases__`), in declaration order, from the class
statements of event.py. -/
def clsBases : Cls → List Cls
  | DataFormatInterface => []
  | XMLFormatInterface => [DataFormatInterface]
  | JSONFormatInterface => [DataFormatInterface]
  | Event => []
  | HttpEvent => [Event]
  | XMLEvent => [XMLFormatInterface, Event]
  | JSONEvent => [JSONFormatInterface, Event]
  | JSONHttpEvent => [JSONEvent, HttpEvent]
  | XMLHttpEvent => [XMLEvent, HttpEvent]
  | LogEvent => [Event]

/-- `issubclass` with explicit fuel (the hierarchy has depth < 10). -/
def issubclassFuel : Nat → Cls → Cls → Bool
  | 0, _, _ => false
  | n + 1, c, d => c = d || (clsBases c).any fun b => issubclassFuel n b d

/-- Python's `issubclass(c, d)`. -/
def issubclass (c d : Cls) : Bool := issubclassFuel 10 c d

/-- The module-level `built_classes` list of event.py. -/
def built_classes : List Cls :=
  [Event, XMLEvent, JSONEvent, HttpEvent, JSONHttpEvent, XMLHttpEvent, LogEvent]

/-- `Event.convert`'s computation of the class of the converted event:
widening picks the target itself; a "complex widening" (sideways) conversion
collects the target plus those of the source's direct bases and the source
class itself that are neither `DataFormatInterface` subclasses nor proper
superclasses of the target, and either uses the sole collected class or looks
up a built class with exactly that bases tuple; a narrowing conversion reaches
a `raise InvalidEventConversion(...)` statement, but that name is absent from
event.py's import list, so the attempt itself fails with a `NameError`. -/
def convertClass (self convert_to : Cls) : Except PyError Cls :=
  if issubclass convert_to self then
    .ok convert_to
  else if ¬ issubclass self convert_to then
    let bases := convert_to ::
      ((clsBases self ++ [self]).filter fun cls =>
        ¬ issubclass cls DataFormatInterface && ¬ issubclass convert_to cls)
    match bases with
    | [b] => .ok b
    | _ =>
      match built_classes.filter (fun cls => clsBases cls = bases) with
      | c :: _ => .ok c
      | [] => .error .indexError
  else
    .error .nameError

/-- The capability a class grants beyond a plain event: a payload family
(JSON or XML) and/or the HTTP extension (spec section 3). -/
inductive Cap where
  | json
  | xml
  | http
  deriving DecidableEq, Repr

/-- Capability set of each concrete event class (spec glossary: payload
family plus optional HTTP extension; plain contributes no element). -/
def capSet : Cls → List Cap
  | JSONEvent => [.json]
  | XMLEvent => [.xml]
  | HttpEvent => [.http]
  | JSONHttpEvent => [.json, .http]
  | XMLHttpEvent => [.xml, .http]
  | _ => []

/-- Capability-set inclusion. -/
def capLe (c d : Cls) : Bool := (capSet c).all fun x => (capSet d).contains x

/-! ## The XML/JSON impedance helpers (`internal_xmlify`, `remove_internal_xmlify`) -/

/-- The synthetic envelope key used by the impedance rule. -/
def envelopeKey : PyVal := .str "jsonified_envelope"

/-- Second half of `internal_xmlify`: `_, value = next(_json.iteritems())`
followed by a second envelope wrap when that first value is a list.  On an
empty dict `next` raises `StopIteration`; on a non-dict it raises an
`AttributeError` (no `iteritems`), both modelled as errors. -/
def internalXmlifySecondWrap (j : PyVal) : Except PyError PyVal :=
  match j with
  | .dict [] => .error .stopIteration
  | .dict ((k, v) :: rest) =>
    match v with
    | .list _ => .ok (.dict [(envelopeKey, .dict ((k, v) :: rest))])
    | _ => .ok (.dict ((k, v) :: rest))
  | _ => .error .typeError

/-- `internal_xmlify` from event.py: wrap a list, or a dict with more than
one key, in the envelope; then, looking at the first value of the (possibly
wrapped) dict, wrap once more if that value is a list. -/
def internal_xmlify (_json : PyVal) : Except PyError PyVal :=
  match _json with
  | .list xs =>
    let j1 := PyVal.dict [(envelopeKey, .list xs)]
    internalXmlifySecondWrap j1
  | .dict es =>
    let j1 := if es.length > 1 then PyVal.dict [(envelopeKey, .dict es)] else .dict es
    internalXmlifySecondWrap j1
  | _ => .error .typeError

/-- `remove_internal_xmlify` from event.py: a single-entry dict keyed by the
envelope key is unwrapped to its value; anything else passes through
(`len` of an unsized value would raise, modelled as an error). -/
def remove_internal_xmlify (_json : PyVal) : Except PyError PyVal :=
  match _json with
  | .dict [(k, v)] => if pyBeq k envelopeKey then .ok v else .ok (.dict [(k, v)])
  | .dict es => .ok (.dict es)
  | .list xs => .ok (.list xs)
  | .tuple xs => .ok (.tuple xs)
  | .str s => .ok (.str s)
  | .xml t => .ok (.xml t)
  | _ => .error .typeError

/-- Modelled from the spec's words for the JSON-to-XML envelope rule (spec
section 4.2), for comparison with `internal_xmlify`: wrap a sequence or a
mapping with more than one key in the single-key envelope; then, if the sole
value under the single remaining top key is itself a sequence, apply the
same wrap again. -/
def specEnvelopeWrap (j : PyVal) : PyVal :=
  let j1 :=
    match j with
    | .list _ => PyVal.dict [(envelopeKey, j)]
    | .dict es => if es.length > 1 then PyVal.dict [(envelopeKey, j)] else j
    | _ => j
  match j1 with
  | .dict [(_, .list _)] => .dict [(envelopeKey, j1)]
  | _ => j1

/-- Modelled from the spec's words for the XML-to-JSON unwrap (spec section
4.2), for comparison with `remove_internal_xmlify`: a decoded result that is
a single-key mapping keyed by the synthetic envelope key is unwrapped to the
bare value. -/
def specEnvelopeUnwrap (j : PyVal) : PyVal :=
  match j with
  | .dict [(.str k, v)] => if k = "jsonified_envelope" then v else j
  | _ => j

/-! ## The xmltodict model (`parse` with the `should_force_list` callback) -/

/-- `should_force_list` from event.py, as a pure function of the child value
(the `path` and `key` arguments are unused in the source): when the value is
a dict bearing an `@force_list` attribute entry, pop that entry off and
force a list.  Returns the decision and the (possibly popped) value. -/
def should_force_list (value : PyVal) : Bool × PyVal :=
  match value with
  | .dict es =>
    if dictHasKey es (.str "@force_list") then
      (true, .dict (es.filter fun kv => ¬ pyBeq kv.1 (.str "@force_list")))
    else
      (false, .dict es)
  | v => (false, v)

/-- Replace the value at the first entry whose key equals (`==`) `key`. -/
def dictReplace (entries : List (PyVal × PyVal)) (key newVal : PyVal) :
    List (PyVal × PyVal) :=
  match entries with
  | [] => []
  | (k, v) :: rest =>
    if pyBeq k key then (k, newVal) :: rest else (k, v) :: dictReplace rest key newVal

/-- xmltodict's `push_data`: add a parsed child under `key`.  A repeated key
grows (or starts) a list; a fresh key consults the force-list callback,
which may pop the `@force_list` attribute and demand a singleton list. -/
def pushData (item : List (PyVal × PyVal)) (key : String) (data : PyVal) :
    List (PyVal × PyVal) :=
  match dictGet item (.str key) with
  | some (.list xs) => dictReplace item (.str key) (.list (xs ++ [data]))
  | some v => dictReplace item (.str key) (.list [v, data])
  | Option.none =>
    let fd := should_force_list data
    item ++ [(.str key, if fd.1 then .list [fd.2] else fd.2)]

/-- The tag of an element. -/
def XmlTree.tag : XmlTree → String
  | .elem t _ _ _ => t

mutual

/-- xmltodict's rendering of one element: attribute entries keyed `@name`,
then children folded in document order through `pushData`, then a `#text`
entry when text coexists with attributes or children; an element with only
text becomes the bare string, and an empty element becomes `None`. -/
def xmltodictElem : XmlTree → PyVal
  | .elem _ attrs children text =>
    match attrs, children, text with
    | [], [], some s => .str s
    | [], [], Option.none => .none
    | _, _, _ =>
      let base : List (PyVal × PyVal) :=
        attrs.map fun a => (PyVal.str ("@" ++ a.1), PyVal.str a.2)
      let withChildren := xmltodictChildren base children
      match text with
      | some s => .dict (withChildren ++ [(.str "#text", .str s)])
      | Option.none => .dict withChildren

/-- Fold the children of an element through `pushData`. -/
def xmltodictChildren (acc : List (PyVal × PyVal)) :
    List XmlTree → List (PyVal × PyVal)
  | [] => acc
  | c :: rest => xmltodictChildren (pushData acc c.tag (xmltodictElem c)) rest

end

/-- `xmltodict.parse` on a serialized tree: the root element is itself pushed
through `push_data` (so the force-list callback applies to the root too),
giving a single-entry dict keyed by the root tag. -/
def xmltodictParse (t : XmlTree) : PyVal :=
  .dict (pushData [] t.tag (xmltodictElem t))

/-! ## Numeric text helpers -/

/-- The decimal digit character for a value below ten. -/
def decDigitChar : Nat → Char
  | 0 => '0' | 1 => '1' | 2 => '2' | 3 => '3' | 4 => '4'
  | 5 => '5' | 6 => '6' | 7 => '7' | 8 => '8' | _ => '9'

/-- Decimal representation with explicit fuel (any fuel above the value
works; see `natRepr`). -/
def natReprAux : Nat → Nat → List Char
  | 0, _ => []
  | fuel + 1, n =>
    if n < 10 then [decDigitChar n]
    else natReprAux fuel (n / 10) ++ [decDigitChar (n % 10)]

/-- Decimal representation of a natural number, most significant digit
first, without leading zeros (and `0` for zero). -/
def natRepr (n : Nat) : List Char := natReprAux (n + 1) n

/-- Python `repr`/`str` of an integer. -/
def intRepr : Int → List Char
  | .ofNat m => natRepr m
  | .negSucc m => '-' :: natRepr (m + 1)

/-- Is the character an ASCII decimal digit? -/
def isDigitCh (c : Char) : Bool := '0' ≤ c && c ≤ '9'

/-- Python `int(str)`: optional surrounding spaces, an optional sign, then
at least one digit; anything else raises `ValueError` (here: `none`). -/
def pyIntOfChars (cs : List Char) : Option Int :=
  let trimmed := (cs.dropWhile (· = ' ')).reverse.dropWhile (· = ' ') |>.reverse
  let core : Option (Bool × List Char) :=
    match trimmed with
    | '-' :: rest => some (true, rest)
    | '+' :: rest => some (false, rest)
    | rest => some (false, rest)
  match core with
  | some (neg, ds) =>
    if ds ≠ [] ∧ ds.all isDigitCh then
      let n := ds.foldl (fun a c => a * 10 + (c.toNat - 48)) (0 : Nat)
      some (if neg then -(n : Int) else (n : Int))
    else Option.none
  | Option.none => Option.none

/-- Python `int(str)` on a `String`. -/
def pyInt (s : String) : Option Int := pyIntOfChars s.data

/-! ## xmltodict `unparse` composed with `etree.fromstring`

event.py's XML registry converts a JSON container by
`etree.fromstring(xmltodict.unparse(internal_xmlify(data)).encode('utf-8'))`.
The text intermediary is modelled away: `unparseSingle` builds the element
tree `unparse` would serialize and `fromstring` would reparse. -/

mutual

/-- Build the element named `tag` from an unparse value: a dict contributes
attributes (`@`-prefixed keys), a `#text` entry, and child elements; a
scalar becomes text content; `None` an empty element. -/
def unparseSingle (tag : String) (v : PyVal) : Except PyError XmlTree :=
  match v with
  | .dict es => do
    let acc ← unparseEntries es [] [] Option.none
    .ok (.elem tag acc.1 acc.2.1 acc.2.2)
  | .str s => .ok (.elem tag [] [] (some s))
  | .int n => .ok (.elem tag [] [] (some (String.mk (intRepr n))))
  | .bool b => .ok (.elem tag [] [] (some (if b then "True" else "False")))
  | .none => .ok (.elem tag [] [] Option.none)
  | _ => .error .typeError

/-- One key of an unparse dict may expand to several sibling elements when
its value is a list. -/
def unparseItem (tag : String) (v : PyVal) : Except PyError (List XmlTree) :=
  match v with
  | .list xs => unparseItems tag xs
  | v => do
    let e ← unparseSingle tag v
    .ok [e]

/-- Expand each list item into one element named `tag`. -/
def unparseItems (tag : String) : List PyVal → Except PyError (List XmlTree)
  | [] => .ok []
  | x :: rest => do
    let e ← unparseSingle tag x
    let es ← unparseItems tag rest
    .ok (e :: es)

/-- Walk the entries of an unparse dict, accumulating attributes, children,
and text; a non-string key raises. -/
def unparseEntries (es : List (PyVal × PyVal))
    (attrs : List (String × String)) (children : List XmlTree)
    (text : Option String) :
    Except PyError (List (String × String) × List XmlTree × Option String) :=
  match es with
  | [] => .ok (attrs, children, text)
  | (.str k, v) :: rest =>
    if k.startsWith "@" then
      match v with
      | .str s => unparseEntries rest (attrs ++ [((k.drop 1), s)]) children text
      | .int n =>
        unparseEntries rest (attrs ++ [((k.drop 1), String.mk (intRepr n))]) children text
      | _ => .error .typeError
    else if k = "#text" then
      match v with
      | .str s => unparseEntries rest attrs children (some s)
      | _ => .error .typeError
    else
      match unparseItem k v with
      | .ok cs => unparseEntries rest attrs (children ++ cs) text
      | .error e => .error e
  | _ => .error .typeError

end

/-- The XML-family registry's JSON-container entry: envelope-wrap via
`internal_xmlify`, then unparse the sole root key to an element tree. -/
def xmlFromJsonContainer (v : PyVal) : Except PyError XmlTree := do
  let w ← internal_xmlify v
  match w with
  | .dict [(.str tag, rv)] =>
    match rv with
    | .list _ => .error .valueError
    | _ => unparseSingle tag rv
  | _ => .error .valueError

/-! ## XML text (`etree.tostring` / `etree.fromstring`)

Modelled for simple documents: elements, attributes, and text content,
without entity escaping, comments, processing instructions, namespaces, or
mixed content after child elements.  The event layer's claims exercise the
tree-level conversions; these definitions make the string-facing entries of
the registries total. -/

/-- Is the character XML whitespace? -/
def isWs (c : Char) : Bool := c = ' ' || c = '\t' || c = '\n' || c = '\r'

mutual

/-- Serialize an element (`etree.tostring` on simple documents). -/
def xmlToChars : XmlTree → List Char
  | .elem tag attrs children text =>
    let opening := '<' :: tag.data ++ xmlAttrsChars attrs
    match children, text with
    | [], Option.none => opening ++ ['/', '>']
    | _, _ =>
      opening ++ '>' :: (match text with | some s => s.data | Option.none => []) ++
        xmlChildrenChars children ++ '<' :: '/' :: tag.data ++ ['>']

/-- Serialize an attribute list. -/
def xmlAttrsChars : List (String × String) → List Char
  | [] => []
  | (k, v) :: rest => ' ' :: k.data ++ '=' :: '"' :: v.data ++ '"' :: xmlAttrsChars rest

/-- Serialize a child list. -/
def xmlChildrenChars : List XmlTree → List Char
  | [] => []
  | c :: rest => xmlToChars c ++ xmlChildrenChars rest

end

/-- `etree.tostring` as a `String`. -/
def xmlToString (t : XmlTree) : String := String.mk (xmlToChars t)

/-- May the character appear in a tag or attribute name? -/
def isNameCh (c : Char) : Bool :=
  c.isAlphanum || c = '_' || c = '-' || c = ':' || c = '.'

/-- Longest prefix of name characters. -/
def takeName (cs : List Char) : List Char × List Char :=
  match cs with
  | c :: rest =>
    if isNameCh c then
      let p := takeName rest
      (c :: p.1, p.2)
    else ([], c :: rest)
  | [] => ([], [])

/-- Characters up to (excluding) the next occurrence of `stop`. -/
def takeUntil (stop : Char) (cs : List Char) : Option (List Char × List Char) :=
  match cs with
  | [] => Option.none
  | c :: rest =>
    if c = stop then some ([], rest)
    else (takeUntil stop rest).map fun p => (c :: p.1, p.2)

/-- Parse an attribute list, ending at `/` or `>`. -/
def parseXmlAttrs (fuel : Nat) (cs : List Char) :
    Option (List (String × String) × List Char) :=
  match fuel with
  | 0 => Option.none
  | fuel + 1 =>
    let cs := cs.dropWhile isWs
    match cs with
    | '/' :: rest => some ([], '/' :: rest)
    | '>' :: rest => some ([], '>' :: rest)
    | _ =>
      match takeName cs with
      | ([], _) => Option.none
      | (name, rest) =>
        match rest.dropWhile isWs with
        | '=' :: rest2 =>
          match rest2.dropWhile isWs with
          | '"' :: rest3 => do
            let (value, rest4) ← takeUntil '"' rest3
            let (attrs, rest5) ← parseXmlAttrs fuel rest4
            pure ((String.mk name, String.mk value) :: attrs, rest5)
          | _ => Option.none
        | _ => Option.none

mutual

/-- Parse one element starting at `<` (a simple-document
`etree.fromstring`). -/
def parseXmlElem (fuel : Nat) (cs : List Char) : Option (XmlTree × List Char) :=
  match fuel with
  | 0 => Option.none
  | fuel + 1 =>
    match cs with
    | '<' :: rest =>
      match takeName rest with
      | ([], _) => Option.none
      | (name, rest2) => do
        let (attrs, rest3) ← parseXmlAttrs fuel rest2
        match rest3 with
        | '/' :: '>' :: rest4 => pure (.elem (String.mk name) attrs [] Option.none, rest4)
        | '>' :: rest4 => do
          let (text, rest5) ← takeUntil '<' rest4
          let textVal : Option String := if text = [] then Option.none else some (String.mk text)
          match rest5 with
          | '/' :: rest6 =>
            match rest6.dropPrefix? name with
            | some rest7 =>
              match rest7.dropWhile isWs with
              | '>' :: rest8 => pure (.elem (String.mk name) attrs [] textVal, rest8)
              | _ => Option.none
            | Option.none => Option.none
          | _ => do
            let (children, rest6) ← parseXmlChildren fuel ('<' :: rest5)
            match rest6 with
            | '<' :: '/' :: rest7 =>
              match rest7.dropPrefix? name with
              | some rest8 =>
                match rest8.dropWhile isWs with
                | '>' :: rest9 => pure (.elem (String.mk name) attrs children textVal, rest9)
                | _ => Option.none
              | Option.none => Option.none
            | _ => Option.none
        | _ => Option.none
    | _ => Option.none

/-- Parse sibling elements until a closing tag begins. -/
def parseXmlChildren (fuel : Nat) (cs : List Char) :
    Option (List XmlTree × List Char) :=
  match fuel with
  | 0 => Option.none
  | fuel + 1 =>
    match cs with
    | '<' :: '/' :: rest => some ([], '<' :: '/' :: rest)
    | '<' :: rest => do
      let (c, rest2) ← parseXmlElem fuel ('<' :: rest)
      let rest3 := rest2.dropWhile isWs
      let (cs2, rest4) ← parseXmlChildren fuel rest3
      pure (c :: cs2, rest4)
    | _ => some ([], cs)

end

/-- `etree.fromstring` on a simple document: parse one element and demand
nothing but whitespace after it. -/
def xmlFromString (s : String) : Option XmlTree :=
  let cs := s.data.dropWhile isWs
  match parseXmlElem (cs.length + 1) cs with
  | some (t, rest) => if rest.dropWhile isWs = [] then some t else Option.none
  | Option.none => Option.none

/-! ## JSON text (`json.dumps` / `json.loads`)

Python 2's `json` with default options: `ensure_ascii` escaping, `", "` and
`": "` separators, strict parsing.  Numbers are modelled as integers; float
literals are left outside the model (floating point is not embedded), so the
parser refuses `.`/exponent forms rather than produce an unrepresentable
value. -/

/-- Lowercase hexadecimal digit character for a value below sixteen. -/
def hexDigitChar : Nat → Char
  | 0 => '0' | 1 => '1' | 2 => '2' | 3 => '3' | 4 => '4'
  | 5 => '5' | 6 => '6' | 7 => '7' | 8 => '8' | 9 => '9'
  | 10 => 'a' | 11 => 'b' | 12 => 'c' | 13 => 'd' | 14 => 'e' | _ => 'f'

/-- Four-digit lowercase hex rendering of a value below `0x10000`. -/
def hex4 (n : Nat) : List Char :=
  [hexDigitChar (n / 4096 % 16), hexDigitChar (n / 256 % 16),
   hexDigitChar (n / 16 % 16), hexDigitChar (n % 16)]

/-- `json.dumps` escaping of one character under `ensure_ascii`: printable
ASCII other than quote and backslash is literal; the short escapes cover
backspace, tab, newline, form feed, carriage return; everything else is
`\uXXXX`, astral characters as a surrogate pair. -/
def escapeChar (c : Char) : List Char :=
  if c = '"' then ['\\', '"']
  else if c = '\\' then ['\\', '\\']
  else if 0x20 ≤ c.toNat ∧ c.toNat ≤ 0x7E then [c]
  else if c.toNat = 8 then ['\\', 'b']
  else if c.toNat = 9 then ['\\', 't']
  else if c.toNat = 10 then ['\\', 'n']
  else if c.toNat = 12 then ['\\', 'f']
  else if c.toNat = 13 then ['\\', 'r']
  else if c.toNat < 0x10000 then '\\' :: 'u' :: hex4 c.toNat
  else
    let v := c.toNat - 0x10000
    ('\\' :: 'u' :: hex4 (0xD800 + v / 0x400)) ++ ('\\' :: 'u' :: hex4 (0xDC00 + v % 0x400))

/-- Escape every character of a string body. -/
def escapeString : List Char → List Char
  | [] => []
  | c :: rest => escapeChar c ++ escapeString rest

/-- A JSON string literal: quoted, escaped. -/
def quoteString (s : String) : List Char := '"' :: escapeString s.data ++ ['"']

/-- `json.dumps` key coercion: string keys serialize as strings; integer,
boolean and null keys are coerced to their text forms; container or element
keys raise `TypeError` (here: `none`). -/
def dumpsKey : PyVal → Option (List Char)
  | .str s => some (quoteString s)
  | .int n => some ('"' :: intRepr n ++ ['"'])
  | .bool true => some ['"', 't', 'r', 'u', 'e', '"']
  | .bool false => some ['"', 'f', 'a', 'l', 's', 'e', '"']
  | .none => some ['"', 'n', 'u', 'l', 'l', '"']
  | _ => Option.none

mutual

/-- `json.dumps` with default separators.  `none` models a `TypeError` on an
unserializable value (an element tree). -/
def dumpsVal : PyVal → Option (List Char)
  | .none => some ['n', 'u', 'l', 'l']
  | .bool true => some ['t', 'r', 'u', 'e']
  | .bool false => some ['f', 'a', 'l', 's', 'e']
  | .int n => some (intRepr n)
  | .str s => some (quoteString s)
  | .list xs => do
    let body ← dumpsElems xs
    pure ('[' :: body ++ [']'])
  | .tuple xs => do
    let body ← dumpsElems xs
    pure ('[' :: body ++ [']'])
  | .dict es => do
    let body ← dumpsEntries es
    pure ('\x7b' :: body ++ ['\x7d'])
  | .xml _ => Option.none

/-- Array elements, `", "`-separated. -/
def dumpsElems : List PyVal → Option (List Char)
  | [] => some []
  | [x] => dumpsVal x
  | x :: y :: rest => do
    let a ← dumpsVal x
    let b ← dumpsElems (y :: rest)
    pure (a ++ ',' :: ' ' :: b)

/-- Object members, `": "` between key and value, `", "` between members. -/
def dumpsEntries : List (PyVal × PyVal) → Option (List Char)
  | [] => some []
  | [(k, v)] => do
    let ks ← dumpsKey k
    let vs ← dumpsVal v
    pure (ks ++ ':' :: ' ' :: vs)
  | (k, v) :: m :: rest => do
    let ks ← dumpsKey k
    let vs ← dumpsVal v
    let b ← dumpsEntries (m :: rest)
    pure (ks ++ ':' :: ' ' :: vs ++ ',' :: ' ' :: b)

end

/-- Hexadecimal digit value of a character, if any. -/
def hexVal (c : Char) : Option Nat :=
  if isDigitCh c then some (c.toNat - 48)
  else if 'a' ≤ c && c ≤ 'f' then some (c.toNat - 87)
  else if 'A' ≤ c && c ≤ 'F' then some (c.toNat - 55)
  else Option.none

/-- Value of four hex digit characters. -/
def hex4Val (a b c d : Char) : Option Nat := do
  let x ← hexVal a
  let y ← hexVal b
  let z ← hexVal c
  let w ← hexVal d
  pure (x * 4096 + y * 256 + z * 16 + w)

/-- The decoded character of a single-character escape, if it is one. -/
def shortEscapeChar (e : Char) : Option Char :=
  if e = '"' then some '"'
  else if e = '\\' then some '\\'
  else if e = '/' then some '/'
  else if e = 'b' then some (Char.ofNat 8)
  else if e = 't' then some (Char.ofNat 9)
  else if e = 'n' then some (Char.ofNat 10)
  else if e = 'f' then some (Char.ofNat 12)
  else if e = 'r' then some (Char.ofNat 13)
  else Option.none

/-- Parse a JSON string body after the opening quote, returning the decoded
characters and the input after the closing quote.  Escapes follow
`json.loads`: the named escapes, `\uXXXX`, and surrogate pairs recombined
into one character; raw control characters and lone surrogates are
refused.  One unit of fuel is spent per decoded character, so fuel
exceeding the input length always suffices (see the call sites). -/
def parseStringBody : Nat → List Char → Option (List Char × List Char)
  | 0, _ => Option.none
  | fuel + 1, s =>
    match s with
    | [] => Option.none
    | c :: rest =>
      if c = '"' then some ([], rest)
      else if c = '\\' then
        match rest with
        | [] => Option.none
        | e :: rest2 =>
          if e = 'u' then
            match rest2 with
            | a :: b :: c2 :: d :: rest3 => do
              let n ← hex4Val a b c2 d
              if 0xD800 ≤ n ∧ n ≤ 0xDBFF then
                match rest3 with
                | '\\' :: 'u' :: a3 :: b3 :: c3 :: d3 :: rest4 => do
                  let m ← hex4Val a3 b3 c3 d3
                  if 0xDC00 ≤ m ∧ m ≤ 0xDFFF then
                    let p ← parseStringBody fuel rest4
                    pure (Char.ofNat (0x10000 + (n - 0xD800) * 0x400 + (m - 0xDC00)) :: p.1, p.2)
                  else Option.none
                | _ => Option.none
              else if 0xDC00 ≤ n ∧ n ≤ 0xDFFF then Option.none
              else do
                let p ← parseStringBody fuel rest3
                pure (Char.ofNat n :: p.1, p.2)
            | _ => Option.none
          else do
            let c3 ← shortEscapeChar e
            let p ← parseStringBody fuel rest2
            pure (c3 :: p.1, p.2)
      else if c.toNat < 0x20 then Option.none
      else do
        let p ← parseStringBody fuel rest
        pure (c :: p.1, p.2)

/-- Greedy digit run. -/
def takeDigits (cs : List Char) : List Char × List Char :=
  match cs with
  | c :: rest =>
    if isDigitCh c then
      let p := takeDigits rest
      (c :: p.1, p.2)
    else ([], c :: rest)
  | [] => ([], [])

/-- Numeric value of a digit run. -/
def digitsToNat (ds : List Char) : Nat :=
  ds.foldl (fun a c => a * 10 + (c.toNat - 48)) 0

/-- Parse an unsigned JSON integer: at least one digit, no leading zero,
and no float continuation (`.`/`e`/`E`), which would denote a float outside
the model. -/
def parseJsonNat (cs : List Char) : Option (Nat × List Char) :=
  let p := takeDigits cs
  if p.1 = [] then Option.none
  else if 1 < p.1.length ∧ p.1.head? = some '0' then Option.none
  else if p.2.head? = some '.' ∨ p.2.head? = some 'e' ∨ p.2.head? = some 'E' then
    Option.none
  else some (digitsToNat p.1, p.2)

/-- Parse a JSON number (integer fragment). -/
def parseJsonNumber (cs : List Char) : Option (PyVal × List Char) :=
  if cs.head? = some '-' then do
    let p ← parseJsonNat cs.tail
    pure (.int (-(p.1 : Int)), p.2)
  else do
    let p ← parseJsonNat cs
    pure (.int (p.1 : Int), p.2)

mutual

/-- Recursive-descent JSON value parser, fuel-bounded (each recursive call
consumes input, so `length + 1` fuel always suffices; see `json_loads`). -/
def parseJsonVal : Nat → List Char → Option (PyVal × List Char)
  | 0, _ => Option.none
  | fuel + 1, s =>
    match s with
    | [] => Option.none
    | c :: rest =>
      if c = 'n' then
        match rest with
        | 'u' :: 'l' :: 'l' :: r => some (.none, r)
        | _ => Option.none
      else if c = 't' then
        match rest with
        | 'r' :: 'u' :: 'e' :: r => some (.bool true, r)
        | _ => Option.none
      else if c = 'f' then
        match rest with
        | 'a' :: 'l' :: 's' :: 'e' :: r => some (.bool false, r)
        | _ => Option.none
      else if c = '"' then do
        let p ← parseStringBody (rest.length + 1) rest
        pure (.str (String.mk p.1), p.2)
      else if c = '[' then
        let rest1 := rest.dropWhile isWs
        if rest1.head? = some ']' then some (.list [], rest1.tail)
        else parseJsonElems fuel rest1 []
      else if c = '\x7b' then
        let rest1 := rest.dropWhile isWs
        if rest1.head? = some '\x7d' then some (.dict [], rest1.tail)
        else parseJsonMembers fuel rest1 []
      else parseJsonNumber (c :: rest)

/-- Parse the remaining elements of a non-empty array. -/
def parseJsonElems (fuel : Nat) (s : List Char) (acc : List PyVal) :
    Option (PyVal × List Char) :=
  match fuel with
  | 0 => Option.none
  | fuel + 1 => do
    let (v, r) ← parseJsonVal fuel s
    let r1 := r.dropWhile isWs
    match r1 with
    | ',' :: r2 => parseJsonElems fuel (r2.dropWhile isWs) (acc ++ [v])
    | ']' :: r2 => some (.list (acc ++ [v]), r2)
    | _ => Option.none

/-- Parse the remaining members of a non-empty object. -/
def parseJsonMembers (fuel : Nat) (s : List Char) (acc : List (PyVal × PyVal)) :
    Option (PyVal × List Char) :=
  match fuel with
  | 0 => Option.none
  | fuel + 1 =>
    match s with
    | '"' :: rest => do
      let (kcs, r) ← parseStringBody (rest.length + 1) rest
      let r1 := r.dropWhile isWs
      match r1 with
      | ':' :: r2 => do
        let (v, r3) ← parseJsonVal fuel (r2.dropWhile isWs)
        let r4 := r3.dropWhile isWs
        match r4 with
        | ',' :: r5 => parseJsonMembers fuel (r5.dropWhile isWs) (acc ++ [(.str (String.mk kcs), v)])
        | '\x7d' :: r5 => some (.dict (acc ++ [(.str (String.mk kcs), v)]), r5)
        | _ => Option.none
      | _ => Option.none
    | _ => Option.none

end

/-- `json.loads`: parse one value surrounded by optional whitespace;
trailing data raises (here: `none`). -/
def json_loads (s : String) : Option PyVal :=
  let cs := s.data.dropWhile isWs
  match parseJsonVal (cs.length + 1) cs with
  | some (v, rest) => if rest.dropWhile isWs = [] then some v else Option.none
  | Option.none => Option.none

/-- `json.dumps` producing a `String` (a `TypeError` is `none`). -/
def json_dumps (v : PyVal) : Option String :=
  (dumpsVal v).map String.mk

/-! ## The error model and the event record -/

/-- The exception classes of compysition/errors.py that event.py imports,
plus `OtherException` standing for any class absent from `http_code_map`
(the `defaultdict` default). -/
inductive ErrKind where
  | ResourceNotModified
  | MalformedEventData
  | InvalidEventDataModification
  | UnauthorizedEvent
  | ForbiddenEvent
  | ResourceNotFound
  | EventCommandNotAllowed
  | ActorTimeout
  | ResourceConflict
  | ResourceGone
  | UnprocessableEventData
  | EventRateExceeded
  | CompysitionException
  | ServiceUnavailable
  | OtherException
  deriving DecidableEq, Repr

/-- `http_code_map` from event.py: exception class to status tuple and extra
headers; `NoneType` maps to 200 and any unlisted class defaults to 500. -/
def http_code_map : Option ErrKind → PyVal × List (String × String)
  | some .ResourceNotModified => (.tuple [.int 304, .str "Not Modified"], [])
  | some .MalformedEventData => (.tuple [.int 400, .str "Bad Request"], [])
  | some .InvalidEventDataModification => (.tuple [.int 400, .str "Bad Request"], [])
  | some .UnauthorizedEvent =>
    (.tuple [.int 401, .str "Unauthorized"],
     [("WWW-Authenticate", "Basic realm=\"Compysition Server\"")])
  | some .ForbiddenEvent => (.tuple [.int 403, .str "Forbidden"], [])
  | some .ResourceNotFound => (.tuple [.int 404, .str "Not Found"], [])
  | some .EventCommandNotAllowed => (.tuple [.int 405, .str "Method Not Allowed"], [])
  | some .ActorTimeout => (.tuple [.int 408, .str "Request Timeout"], [])
  | some .ResourceConflict => (.tuple [.int 409, .str "Conflict"], [])
  | some .ResourceGone => (.tuple [.int 410, .str "Gone"], [])
  | some .UnprocessableEventData => (.tuple [.int 422, .str "Unprocessable Entity"], [])
  | some .EventRateExceeded => (.tuple [.int 429, .str "Too Many Requests"], [])
  | some .CompysitionException => (.tuple [.int 500, .str "Internal Server Error"], [])
  | some .ServiceUnavailable => (.tuple [.int 503, .str "Service Unavailable"], [])
  | some .OtherException => (.tuple [.int 500, .str "Internal Server Error"], [])
  | Option.none => (.tuple [.int 200, .str "OK"], [])

/-- The mutable state of an event: the fields the constructors of `Event`,
`HttpEvent` and their compositions place in the instance `__dict__`.
`status = none` models the `_status` attribute never having been assigned
(reading it then raises `AttributeError`); extension keyword arguments live
in `kwargs`. -/
structure Evt where
  cls : Cls
  event_id : String
  meta_id : String
  service : String
  data : PyVal
  error : Option ErrKind
  kwargs : List (String × PyVal)
  headers : List (String × String)
  method : Option String
  status : Option PyVal
  environment : List (String × String)
  pagination : PyVal

/-- The payload family whose `conversion_methods` the method-resolution
order selects for a class. -/
inductive Family where
  | plain
  | json
  | xml
  deriving DecidableEq, Repr

/-- Which `conversion_methods` table a class's MRO finds: the format
interfaces come before `Event` in the built classes, and everything else
inherits `Event`'s identity `defaultdict`. -/
def convFamily : Cls → Family
  | XMLEvent => .xml
  | XMLHttpEvent => .xml
  | XMLFormatInterface => .xml
  | JSONEvent => .json
  | JSONHttpEvent => .json
  | JSONFormatInterface => .json
  | _ => .plain

/-- The per-family conversion registries (`conversion_methods`): the
canonicalization run by the `data` setter.  Plain is `Event`'s identity
`defaultdict`; JSON parses strings, round-trips containers through
encode/decode, converts element trees via xmltodict with the force-list
callback and envelope unwrap, and maps `None` to an empty dict, anything
else being a `KeyError`; XML parses strings, passes trees through, converts
containers via the envelope wrap and unparse, and maps `None` to a bare
root element. -/
def conversion_methods (f : Family) (data : PyVal) : Except PyError PyVal :=
  match f with
  | .plain => .ok data
  | .json =>
    match data with
    | .str s =>
      match json_loads s with
      | some v => .ok v
      | Option.none => .error .valueError
    | .dict es =>
      match json_dumps (.dict es) with
      | some s =>
        match json_loads s with
        | some v => .ok v
        | Option.none => .error .valueError
      | Option.none => .error .typeError
    | .list xs =>
      match json_dumps (.list xs) with
      | some s =>
        match json_loads s with
        | some v => .ok v
        | Option.none => .error .valueError
      | Option.none => .error .typeError
    | .xml t => remove_internal_xmlify (xmltodictParse t)
    | .none => .ok (.dict [])
    | _ => .error .keyError
  | .xml =>
    match data with
    | .str s =>
      match xmlFromString s with
      | some t => .ok (.xml t)
      | Option.none => .error .valueError
    | .xml t => .ok (.xml t)
    | .dict es => (xmlFromJsonContainer (.dict es)).map .xml
    | .list xs => (xmlFromJsonContainer (.list xs)).map .xml
    | .none => .ok (.xml (.elem "root" [] [] Option.none))
    | _ => .error .keyError

/-- The `data` setter (`Event.data`): run the registry entry for the
value's runtime class; any failure surfaces as
`InvalidEventDataModification`. -/
def setData (e : Evt) (data : PyVal) : Except PyError Evt :=
  match conversion_methods (convFamily e.cls) data with
  | .ok d => .ok { e with data := d }
  | .error _ => .error .invalidEventDataModification

/-- `Event.__init__`: assign the (fresh) event id, default `meta_id` to it
and `service` to `"default"`, run the `data` setter, clear the error, and
merge the extension keyword arguments. -/
def eventInit (cls : Cls) (uid : String) (meta_id service : Option String)
    (data : PyVal) (kwargs : List (String × PyVal)) : Except PyError Evt :=
  let base : Evt :=
    { cls := cls, event_id := uid, meta_id := meta_id.getD uid,
      service := service.getD "default", data := .none, error := Option.none,
      kwargs := kwargs, headers := [], method := Option.none,
      status := Option.none, environment := [], pagination := .none }
  setData base data

/-- The `HttpEvent.status` setter: a tuple is stored as given; a string is
split once on the first space or hyphen and stored as
`(int(code), reason)` when the split yields two parts (a non-numeric code
raises `ValueError`); any other value, or a string with no separator, is
silently ignored. -/
def setStatus (e : Evt) (status : PyVal) : Except PyError Evt :=
  match status with
  | .tuple xs => .ok { e with status := some (.tuple xs) }
  | .str s =>
    match splitOnceSpaceHyphen s.data with
    | some (code, reason) =>
      match pyIntOfChars code with
      | some n => .ok { e with status := some (.tuple [.int n, .str (String.mk reason)]) }
      | Option.none => .error .valueError
    | Option.none => .ok e
  | _ => .ok e
where
  /-- `re.split(' |-', s, 1)` restricted to its two-part outcome. -/
  splitOnceSpaceHyphen : List Char → Option (List Char × List Char)
    | [] => Option.none
    | c :: rest =>
      if c = ' ' ∨ c = '-' then some ([], rest)
      else (splitOnceSpaceHyphen rest).map fun p => (c :: p.1, p.2)

/-- Python `dict.update` on an ordered association list: existing keys keep
their position and take the new value, new keys append. -/
def headersUpdate (old new_ : List (String × String)) : List (String × String) :=
  new_.foldl
    (fun acc kv =>
      if acc.any fun p => p.1 = kv.1 then
        acc.map fun p => if p.1 = kv.1 then (p.1, kv.2) else p
      else acc ++ [kv])
    old

/-- `HttpEvent.__init__`: headers, method from the WSGI environment,
the `status` setter, the environment, the pagination stored directly
(without the validating setter), then `Event.__init__`. -/
def httpEventInit (cls : Cls) (uid : String)
    (headers : List (String × String)) (status : PyVal)
    (environment : List (String × String)) (pagination : PyVal)
    (meta_id service : Option String) (data : PyVal)
    (kwargs : List (String × PyVal)) : Except PyError Evt := do
  let base : Evt :=
    { cls := cls, event_id := uid, meta_id := meta_id.getD uid,
      service := service.getD "default", data := .none, error := Option.none,
      kwargs := kwargs, headers := headers,
      method := (environment.find? fun p => p.1 = "REQUEST_METHOD").map Prod.snd,
      status := Option.none, environment := environment, pagination := pagination }
  let e1 ← setStatus base status
  setData e1 data

/-- `set_error` (`Event.error` setter): on an HTTP-capable class with an
actual exception, look the class up in `http_code_map`, run the status
setter on the mapped tuple and merge the mapped headers; then store the
error.  `None` is not an `Exception` instance, so clearing skips the
status/header branch entirely. -/
def set_error (e : Evt) (exc : Option ErrKind) : Evt :=
  if issubclass e.cls .HttpEvent then
    match exc with
    | some k =>
      let errorState := http_code_map (some k)
      let e1 := { e with status := some errorState.1 }
      let e2 := { e1 with headers := headersUpdate e1.headers errorState.2 }
      { e2 with error := some k }
    | Option.none => { e with error := Option.none }
  else { e with error := exc }

/-- The `HttpEvent.pagination` setter: a mapping (or other container
answering `in`) must contain both `limit` and `offset` keys, else
`ValueError`; an unsized value raises `TypeError` from the `in` test. -/
def setPagination (e : Evt) (p : PyVal) : Except PyError Evt :=
  match p with
  | .dict es =>
    if dictHasKey es (.str "limit") && dictHasKey es (.str "offset") then
      .ok { e with pagination := .dict es }
    else .error .valueError
  | .list xs =>
    if (xs.any fun x => pyBeq x (.str "limit")) && (xs.any fun x => pyBeq x (.str "offset")) then
      .ok { e with pagination := .list xs }
    else .error .valueError
  | .tuple xs =>
    if (xs.any fun x => pyBeq x (.str "limit")) && (xs.any fun x => pyBeq x (.str "offset")) then
      .ok { e with pagination := .tuple xs }
    else .error .valueError
  | .str s =>
    if ((s.splitOn "limit").length > 1) && ((s.splitOn "offset").length > 1) then
      .ok { e with pagination := .str s }
    else .error .valueError
  | _ => .error .typeError

/-- `Event.convert`: compute the target class, copy the instance dict, and
re-run the `data` setter under the new class's registry. -/
def convert (e : Evt) (convert_to : Cls) : Except PyError Evt := do
  let c ← convertClass e.cls convert_to
  setData { e with cls := c } e.data

/-! ## Python `str`/`repr` (for `Event.data_string` on the plain family) -/

mutual

/-- A simple model of Python `repr` on the embedded values (string escaping
inside `repr` is not modelled; nothing proved depends on this rendering). -/
def pyRepr : PyVal → List Char
  | .none => ['N', 'o', 'n', 'e']
  | .bool true => ['T', 'r', 'u', 'e']
  | .bool false => ['F', 'a', 'l', 's', 'e']
  | .int n => intRepr n
  | .str s => '\'' :: s.data ++ ['\'']
  | .list xs => '[' :: pyReprSeq xs ++ [']']
  | .tuple [x] => '(' :: pyRepr x ++ [',', ')']
  | .tuple xs => '(' :: pyReprSeq xs ++ [')']
  | .dict es => '\x7b' :: pyReprEntries es ++ ['\x7d']
  | .xml t => '<' :: 'E' :: 'l' :: 'e' :: 'm' :: 'e' :: 'n' :: 't' :: ' ' :: t.tag.data ++ ['>']

/-- Comma-separated `repr` of a sequence. -/
def pyReprSeq : List PyVal → List Char
  | [] => []
  | [x] => pyRepr x
  | x :: y :: rest => pyRepr x ++ ',' :: ' ' :: pyReprSeq (y :: rest)

/-- Comma-separated `repr` of dict entries. -/
def pyReprEntries : List (PyVal × PyVal) → List Char
  | [] => []
  | [(k, v)] => pyRepr k ++ ':' :: ' ' :: pyRepr v
  | (k, v) :: m :: rest => pyRepr k ++ ':' :: ' ' :: pyRepr v ++ ',' :: ' ' :: pyReprEntries (m :: rest)

end

/-- Python `str`. -/
def pyStr : PyVal → String
  | .str s => s
  | v => String.mk (pyRepr v)

/-- `data_string` per family: the JSON interface serializes with
`json.dumps` (whose Decimal default never fires on canonical data), the XML
interface with `etree.tostring`, and the base `Event` with `str`. -/
def data_string (e : Evt) : Except PyError String :=
  match convFamily e.cls with
  | .json =>
    match json_dumps e.data with
    | some s => .ok s
    | Option.none => .error .typeError
  | .xml =>
    match e.data with
    | .xml t => .ok (xmlToString t)
    | _ => .error .typeError
  | .plain => .ok (pyStr e.data)

/-! ## `Event.lookup` and its accessor chain -/

/-- The objects the `lookup` fold can hold: the event itself (the fold's
seed), an embedded value, or the `NullLookupValue` absent sentinel. -/
inductive LVal where
  | evt (e : Evt)
  | val (v : PyVal)
  | nullLookup

/-- One path step: a string key or an integer index. -/
inductive Step where
  | strKey (s : String)
  | intKey (n : Int)

/-- `int(key)` on a step: parse a string, pass an integer through. -/
def stepToInt : Step → Option Int
  | .strKey s => pyInt s
  | .intKey n => some n

/-- The step as the Python object handed to `dict.get`. -/
def stepPyVal : Step → PyVal
  | .strKey s => .str s
  | .intKey n => .int n

/-- `getattr` on the event for the attribute names the embedding carries:
the dataclass fields and the extension keyword arguments.  (Bound methods
and the raw exception object are outside the value universe.) -/
def evtGetattr (e : Evt) (key : String) : Option PyVal :=
  if key = "data" then some e.data
  else if key = "event_id" then some (.str e.event_id)
  else if key = "meta_id" then some (.str e.meta_id)
  else if key = "service" then some (.str e.service)
  else ((e.kwargs.find? fun kv => kv.1 = key).map Prod.snd)

/-- Python sequence indexing with negative-index wraparound; out of range
is `none` (`IndexError`). -/
def seqIndex {α : Type} (xs : List α) (n : Int) : Option α :=
  if 0 ≤ n then xs.get? n.toNat
  else
    let m := (xs.length : Int) + n
    if 0 ≤ m then xs.get? m.toNat else Option.none

/-- `obj[n]` for an integer subscript: sequences index (strings yield
one-character strings), dicts look the integer up as a key. -/
def pySubscript (v : PyVal) (n : Int) : Option PyVal :=
  match v with
  | .list xs => seqIndex xs n
  | .tuple xs => seqIndex xs n
  | .str s => (seqIndex s.data n).map fun c => .str (String.mk [c])
  | .dict es => dictGet es (.int n)
  | _ => Option.none

/-- `Event._list_get`: `obj[int(key)]`, every failure (unparseable key,
unsubscriptable object, missing index) giving the default. -/
def list_get (obj : LVal) (key : Step) (default : LVal) : LVal :=
  match obj with
  | .val v =>
    match stepToInt key with
    | some n =>
      match pySubscript v n with
      | some r => .val r
      | Option.none => default
    | Option.none => default
  | _ => default

/-- `Event._getattr`: `getattr(obj, key, default)`, with a `TypeError` on a
non-string key giving the default; only the event exposes model-visible
attributes. -/
def lookup_getattr (obj : LVal) (key : Step) (default : LVal) : LVal :=
  match obj, key with
  | .evt e, .strKey s =>
    match evtGetattr e s with
    | some v => .val v
    | Option.none => default
  | _, _ => default

/-- `Event._obj_get`: `obj.get(key, default)`.  `NullLookupValue.get`
returns the sentinel itself; `Event.get` reads attributes; a dict looks the
step up as a key; everything else has no `get` (an `AttributeError`, giving
the default). -/
def obj_get (obj : LVal) (key : Step) (default : LVal) : LVal :=
  match obj with
  | .nullLookup => .nullLookup
  | .evt e =>
    match key with
    | .strKey s =>
      match evtGetattr e s with
      | some v => .val v
      | Option.none => default
    | .intKey _ => default
  | .val (.dict es) =>
    match dictGet es (stepPyVal key) with
    | some v => .val v
    | Option.none => default
  | .val _ => default

/-- One fold step of `Event.lookup`: Python evaluates the nested default
arguments first, so the subscript attempt is the innermost default of the
attribute attempt, which is the default of the `get` attempt. -/
def lookupStep (obj : LVal) (key : Step) : LVal :=
  obj_get obj key (lookup_getattr obj key (list_get obj key .nullLookup))

/-- `Event.lookup`: wrap a bare string path, fold the steps over the event,
and convert a final sentinel to `None`. -/
def lookup (e : Evt) (path : Sum String (List Step)) : LVal :=
  let steps := match path with | .inl s => [Step.strKey s] | .inr l => l
  match steps.foldl lookupStep (.evt e) with
  | .nullLookup => .val .none
  | v => v

/-! Claim-ordered lookup, modelled from the claim's words (spec 4.5), for
comparison with `lookup`. -/

/-- Sequence-index access as the claim words it: applicable when the step
parses as an integer and the current value is a sequence. -/
def claimSeqIndex (obj : LVal) (key : Step) : Option LVal :=
  match obj, stepToInt key with
  | .val (.list xs), some n => (seqIndex xs n).map .val
  | .val (.tuple xs), some n => (seqIndex xs n).map .val
  | .val (.str s), some n => (seqIndex s.data n).map fun c => .val (.str (String.mk [c]))
  | _, _ => Option.none

/-- Attribute access (the event's fields and extension attributes). -/
def claimAttr (obj : LVal) (key : Step) : Option LVal :=
  match obj, key with
  | .evt e, .strKey s => (evtGetattr e s).map .val
  | _, _ => Option.none

/-- Mapping-key access. -/
def claimMapKey (obj : LVal) (key : Step) : Option LVal :=
  match obj with
  | .val (.dict es) => (dictGet es (stepPyVal key)).map .val
  | _ => Option.none

/-- Modelled from the claim's words: resolve each step by attempting, in
order, sequence-index access, then attribute access, then mapping-key
access, the absent sentinel propagating. -/
def claimLookupStep (obj : LVal) (key : Step) : LVal :=
  match obj with
  | .nullLookup => .nullLookup
  | _ =>
    match claimSeqIndex obj key with
    | some r => r
    | Option.none =>
      match claimAttr obj key with
      | some r => r
      | Option.none =>
        match claimMapKey obj key with
        | some r => r
        | Option.none => .nullLookup

/-- The claim-ordered traversal as a whole. -/
def claimLookup (e : Evt) (path : Sum String (List Step)) : LVal :=
  let steps := match path with | .inl s => [Step.strKey s] | .inr l => l
  match steps.foldl claimLookupStep (.evt e) with
  | .nullLookup => .val .none
  | v => v

/-- Mapping-key/`get` access as the amended claim words it: a dict looks
the step up as a key, and the event root's `get` reads its attributes. -/
def amendedGet (obj : LVal) (key : Step) : Option LVal :=
  match obj with
  | .val (.dict es) => (dictGet es (stepPyVal key)).map .val
  | .evt e =>
    match key with
    | .strKey s => (evtGetattr e s).map .val
    | .intKey _ => Option.none
  | _ => Option.none

/-- Integer-subscript access as the amended claim words it: the step
coerced to an integer indexes sequences and strings and keys
integer-keyed mappings. -/
def amendedSubscript (obj : LVal) (key : Step) : Option LVal :=
  match obj with
  | .val v => (stepToInt key).bind fun n => (pySubscript v n).map .val
  | _ => Option.none

/-- The amended claim's step order: mapping-key/`get` access first, then
attribute access, then integer-subscript access; the sentinel propagates
and nothing raises. -/
def amendedLookupStep (obj : LVal) (key : Step) : LVal :=
  match obj with
  | .nullLookup => .nullLookup
  | _ =>
    match amendedGet obj key with
    | some r => r
    | Option.none =>
      match claimAttr obj key with
      | some r => r
      | Option.none =>
        match amendedSubscript obj key with
        | some r => r
        | Option.none => .nullLookup

/-- The amended traversal as a whole. -/
def amendedLookup (e : Evt) (path : Sum String (List Step)) : LVal :=
  let steps := match path with | .inl s => [Step.strKey s] | .inr l => l
  match steps.foldl amendedLookupStep (.evt e) with
  | .nullLookup => .val .none
  | v => v

/-! ## Canonical JSON values and the parser fuel measure -/

mutual

/-- Is a value in the canonical JSON form `json.loads` produces (and the
JSON family's setter stores): null, booleans, integers, strings, lists, and
string-keyed dicts, with no tuples and no element trees?  (Floats are
outside the embedding.) -/
def canonB : PyVal → Bool
  | .none => true
  | .bool _ => true
  | .int _ => true
  | .str _ => true
  | .list xs => canonListB xs
  | .dict es => canonEntriesB es
  | .tuple _ => false
  | .xml _ => false

/-- All elements canonical. -/
def canonListB : List PyVal → Bool
  | [] => true
  | x :: rest => canonB x && canonListB rest

/-- All keys strings and all values canonical. -/
def canonEntriesB : List (PyVal × PyVal) → Bool
  | [] => true
  | (k, v) :: rest =>
    (match k with | .str _ => true | _ => false) && canonB v && canonEntriesB rest

end

mutual

/-- Fuel needed by `parseJsonVal` to read a value back: one step per value,
plus one per element position. -/
def pweight : PyVal → Nat
  | .list xs => 1 + pweightList xs
  | .dict es => 1 + pweightEntries es
  | _ => 1

/-- Fuel needed by `parseJsonElems`. -/
def pweightList : List PyVal → Nat
  | [] => 0
  | x :: rest => 1 + max (pweight x) (pweightList rest)

/-- Fuel needed by `parseJsonMembers`. -/
def pweightEntries : List (PyVal × PyVal) → Nat
  | [] => 0
  | (_, v) :: rest => 1 + max (pweight v) (pweightEntries rest)

end

/-! ## Concrete sample events used by the claim instances -/

/-- `HttpEvent()` with its defaults (fixed uuid `"id"`). -/
def httpSample : Evt :=
  { cls := .HttpEvent, event_id := "id", meta_id := "id", service := "default",
    data := .none, error := Option.none, kwargs := [], headers := [],
    method := Option.none, status := some (.tuple [.int 200, .str "OK"]),
    environment := [], pagination := .none }

/-- `Event(data=5)` (fixed uuid). -/
def plainIntEvent : Evt :=
  { cls := .Event, event_id := "id", meta_id := "id", service := "default",
    data := .int 5, error := Option.none, kwargs := [], headers := [],
    method := Option.none, status := Option.none, environment := [], pagination := .none }

/-- `Event(data={1: "a"}, tag="x")` (fixed uuid): a plain event whose
as-is-stored dict payload has an integer key. -/
def intKeyedEvent : Evt :=
  { cls := .Event, event_id := "id", meta_id := "id", service := "default",
    data := .dict [(.int 1, .str "a")], error := Option.none,
    kwargs := [("tag", .str "x")], headers := [], method := Option.none,
    status := Option.none, environment := [], pagination := .none }

/-- `JSONEvent(data={"a": 1, "b": [true, None]})` (fixed uuid). -/
def jsonSample : Evt :=
  { cls := .JSONEvent, event_id := "id", meta_id := "id", service := "default",
    data := .dict [(.str "a", .int 1), (.str "b", .list [.bool true, .none])],
    error := Option.none, kwargs := [], headers := [], method := Option.none,
    status := Option.none, environment := [], pagination := .none }

/-- `JSONEvent(data={"a": 1}, tag="x")` (fixed uuid). -/
def jsonDictEvent : Evt :=
  { cls := .JSONEvent, event_id := "id", meta_id := "id", service := "default",
    data := .dict [(.str "a", .int 1)], error := Option.none,
    kwargs := [("tag", .str "x")], headers := [], method := Option.none,
    status := Option.none, environment := [], pagination := .none }

/-- `HttpEvent(data={"a": 1}, tag="x")` (fixed uuid): HTTP capability with a
plain-family payload stored as-is. -/
def httpDictEvent : Evt :=
  { cls := .HttpEvent, event_id := "id", meta_id := "id", service := "default",
    data := .dict [(.str "a", .int 1)], error := Option.none,
    kwargs := [("tag", .str "x")], headers := [], method := Option.none,
    status := some (.tuple [.int 200, .str "OK"]), environment := [], pagination := .none }

/-- The XML tree of testable property 5:
a root holding one `item` element with a `force_list` attribute and one
`amount` child whose text is `85`. -/
def forceListTree : XmlTree :=
  .elem "root" []
    [.elem "item" [("force_list", "true")]
      [.elem "amount" [] [] (some "85")] Option.none]
    Option.none

/-- The decoding the claim expects for `forceListTree` (no root key). -/
def claimedForceListDecoding : PyVal :=
  .dict [(.str "item", .list [.dict [(.str "amount", .str "85")]])]

/-- The decoding the code produces for `forceListTree` (under the root
tag key). -/
def actualForceListDecoding : PyVal :=
  .dict [(.str "root", claimedForceListDecoding)]

/-- Is the value a tuple? -/
def isTupleVal : PyVal → Bool
  | .tuple _ => true
  | _ => false

/-- Is the value a string containing a space or hyphen separator? -/
def isSepString : PyVal → Bool
  | .str s => s.data.any fun c => c = ' ' || c = '-'
  | _ => false

/-- Is the value a list, or a dict with at least one entry (the domain on
which `internal_xmlify` agrees with the spec's envelope rule)? -/
def isNonemptyContainer : PyVal → Bool
  | .list _ => true
  | .dict (_ :: _) => true
  | _ => false

/-- Is the value a dict or a list (the registry domain of the unwrap
direction)? -/
def isDictOrList : PyVal → Bool
  | .list _ => true
  | .dict _ => true
  | _ => false

/-- The six event classes of the spec's capability lattice (plain, JSON,
XML, HTTP, and the two composites); `LogEvent` is outside it. -/
def specEventClasses : List Cls :=
  [.Event, .XMLEvent, .JSONEvent, .HttpEvent, .JSONHttpEvent, .XMLHttpEvent]

/-- May this remaining input follow a printed number without the greedy
number scanner swallowing part of it?  True of the empty input and of any
input opening with a non-digit other than `.`/`e`/`E`. -/
def numSafe (t : List Char) : Bool :=
  match t.head? with
  | Option.none => true
  | some c => ¬ isDigitCh c && c ≠ '.' && c ≠ 'e' && c ≠ 'E'

/-! ## Claim C1 -/

/-- C1: the claim says clearing the error of an HTTP-capable event resets
`status` to `(200, "OK")` and drops the error's headers; the code's
`_set_error` guards the status/header branch with
`isinstance(exception, Exception)`, which `None` fails, so clearing leaves
the 401 status and the `WWW-Authenticate` header in place (the map's
`NoneType -> 200` entry, commented "Clear an error", is unreachable).  The
404 example of the claim behaves the same way.  Evaluated here at the
failing inputs. -/
theorem c1_clear_error_keeps_error_status :
    httpEventInit .HttpEvent "id" [] (.tuple [.int 200, .str "OK"]) [] .none
      Option.none Option.none .none [] = .ok httpSample ∧
    (set_error httpSample (some .UnauthorizedEvent)).status
      = some (.tuple [.int 401, .str "Unauthorized"]) ∧
    (set_error httpSample (some .UnauthorizedEvent)).headers
      = [("WWW-Authenticate", "Basic realm=\"Compysition Server\"")] ∧
    (set_error (set_error httpSample (some .UnauthorizedEvent)) Option.none).error
      = Option.none ∧
    (set_error (set_error httpSample (some .UnauthorizedEvent)) Option.none).status
      = some (.tuple [.int 401, .str "Unauthorized"]) ∧
    (set_error (set_error httpSample (some .UnauthorizedEvent)) Option.none).headers
      = [("WWW-Authenticate", "Basic realm=\"Compysition Server\"")] ∧
    (set_error (set_error httpSample (some .ResourceNotFound)) Option.none).status
      = some (.tuple [.int 404, .str "Not Found"]) :=
  ⟨rfl, rfl, rfl, rfl, rfl, rfl, rfl⟩

/-! ## Claim C2 -/

/-- C2: the claim says a narrowing conversion fails with the narrowing
rejection (`InvalidEventConversion`) and no other kind of failure; the
narrowing branch of `Event.convert` does raise, but the name
`InvalidEventConversion` is missing from event.py's import list, so every
narrowing attempt fails with a `NameError` instead.  Evaluated at the
claim's own example (HTTP-bound event to plain event), whose capability
set is a strict subset. -/
theorem c2_narrowing_raises_name_error :
    capLe .Event .HttpEvent = true ∧ capLe .HttpEvent .Event = false ∧
    convertClass .HttpEvent .Event = .error .nameError ∧
    convert httpSample .Event = .error .nameError ∧
    convertClass .JSONHttpEvent .JSONEvent = .error .nameError ∧
    convertClass .XMLHttpEvent .HttpEvent = .error .nameError :=
  ⟨rfl, rfl, rfl, rfl, rfl, rfl⟩

/-! ## Claim C3 -/

/-- C3 counterexample: the claim says a sideways conversion between
JSON-capable and HTTP-capable yields the `JSONHttpEvent` composite in
either direction; converting a `JSONEvent` to `HttpEvent` instead yields
plain `HttpEvent` (the source class and its format bases are all
`DataFormatInterface` subclasses and are filtered out of the synthesized
bases), silently dropping the JSON capability. -/
theorem c3_sideways_to_http_drops_format :
    capLe .JSONEvent .HttpEvent = false ∧ capLe .HttpEvent .JSONEvent = false ∧
    convertClass .JSONEvent .HttpEvent = .ok .HttpEvent ∧
    Cls.HttpEvent ≠ Cls.JSONHttpEvent ∧
    eventInit .JSONEvent "id" Option.none Option.none
      (.dict [(.str "a", .int 1)]) [("tag", .str "x")] = .ok jsonDictEvent ∧
    convert jsonDictEvent .HttpEvent = .ok { jsonDictEvent with cls := .HttpEvent } :=
  ⟨rfl, rfl, rfl, by decide, rfl, rfl⟩

/-- C3 amended: a sideways conversion starting from the HTTP side widens to
the union composite (`HttpEvent` to `JSONEvent` gives `JSONHttpEvent`,
`HttpEvent` to `XMLEvent` gives `XMLHttpEvent`), but starting from a format
side it yields the bare target (`JSONEvent`/`XMLEvent` to `HttpEvent` give
plain `HttpEvent`), because the filter drops every `DataFormatInterface`
subclass from the synthesized bases. -/
theorem c3_amended_sideways_composites :
    convertClass .HttpEvent .JSONEvent = .ok .JSONHttpEvent ∧
    convertClass .HttpEvent .XMLEvent = .ok .XMLHttpEvent ∧
    convertClass .JSONEvent .HttpEvent = .ok .HttpEvent ∧
    convertClass .XMLEvent .HttpEvent = .ok .HttpEvent ∧
    httpEventInit .HttpEvent "id" [] (.tuple [.int 200, .str "OK"]) [] .none
      Option.none Option.none (.dict [(.str "a", .int 1)]) [("tag", .str "x")]
      = .ok httpDictEvent ∧
    convert httpDictEvent .JSONEvent = .ok { httpDictEvent with cls := .JSONHttpEvent } :=
  ⟨rfl, rfl, rfl, rfl, rfl, rfl⟩

/-! ## Claim C4 -/

/-- C4 counterexample: the claim says converting to a capability superset
never raises; `JSONEvent` is a capability superset of plain `Event`
(a widening, `issubclass` holds), yet converting a plain event whose
payload is the integer `5` raises `InvalidEventDataModification`, because
the JSON registry has no entry for `int` (a `KeyError`). -/
theorem c4_widening_counterexample :
    eventInit .Event "id" Option.none Option.none (.int 5) [] = .ok plainIntEvent ∧
    issubclass .JSONEvent .Event = true ∧ capLe .Event .JSONEvent = true ∧
    convert plainIntEvent .JSONEvent = .error .invalidEventDataModification :=
  ⟨rfl, rfl, rfl, rfl⟩

/-! ## Claim C6 -/

/-- C6 counterexample: decoding the force-list tree yields the one-element
list with the attribute stripped, but nested under the `root` tag key
(`xmltodict.parse` keys the result by the root element; only the synthetic
envelope key is unwrapped), not the bare `item` mapping the claim states. -/
theorem c6_force_list_root_key_retained :
    conversion_methods .json (.xml forceListTree) = .ok actualForceListDecoding ∧
    actualForceListDecoding ≠ claimedForceListDecoding :=
  ⟨rfl, by simp [actualForceListDecoding, claimedForceListDecoding]⟩

/-- C6 amended: converting the tree to the JSON family yields exactly the
decoding under the root key: the single `item` element decodes as a
one-element list (forced by the popped `force_list` attribute, which is
absent from the output), nested under `root`. -/
theorem c6_amended_force_list_decoding :
    conversion_methods .json (.xml forceListTree)
      = .ok (.dict [(.str "root",
          .dict [(.str "item", .list [.dict [(.str "amount", .str "85")]])])]) :=
  rfl

/-- C4 amended: on the six spec classes the capability order coincides with
the subclass order, and a widening conversion whose target registry accepts
the payload's runtime shape always succeeds, moving only the class and the
re-canonicalized payload: every other field, the extension attributes
included, is carried over unchanged.  An unsupported payload shape fails
with `InvalidEventDataModification` (the registry's
`UnsupportedSourceType`/`MalformedPayload` surface), as the
counterexample shows. -/
theorem c4_amended_widening_preserves :
    (∀ c ∈ specEventClasses, ∀ t ∈ specEventClasses, capLe c t = issubclass t c) ∧
    ∀ (e : Evt) (t : Cls) (d' : PyVal), issubclass t e.cls = true →
      conversion_methods (convFamily t) e.data = .ok d' →
      convert e t = .ok { e with cls := t, data := d' } := by
  refine ⟨by decide, fun e t d' hsub hconv => ?_⟩
  simp [convert, convertClass, hsub, setData, hconv, bind, Except.bind]

/-- C4 witness: a concrete widening (`JSONEvent` to `JSONHttpEvent`, and
the capability bridge at plain/JSON). -/
theorem c4_amended_widening_preserves_witness :
    capLe .Event .JSONEvent = issubclass .JSONEvent .Event ∧
    convert jsonDictEvent .JSONHttpEvent
      = .ok { jsonDictEvent with cls := .JSONHttpEvent, data := .dict [(.str "a", .int 1)] } :=
  ⟨c4_amended_widening_preserves.1 .Event (by decide) .JSONEvent (by decide),
   c4_amended_widening_preserves.2 jsonDictEvent .JSONHttpEvent _ rfl rfl⟩

/-! ## Claim C5 -/

/-- C5 counterexample: on the empty mapping the spec's envelope rule leaves
the value unwrapped, but `internal_xmlify` crashes (`next` of an empty
`iteritems` raises `StopIteration`, surfacing through the data setter as
`InvalidEventDataModification`), so the wrap is not "exactly as
specified" there. -/
theorem c5_empty_mapping_diverges :
    internal_xmlify (.dict []) = .error .stopIteration ∧
    specEnvelopeWrap (.dict []) = .dict [] ∧
    internal_xmlify (.dict []) ≠ .ok (specEnvelopeWrap (.dict [])) :=
  ⟨rfl, rfl, by simp [internal_xmlify, internalXmlifySecondWrap]⟩

/-- C5 amended: the wrap rule is exactly the spec's on every sequence and
every non-empty mapping (an empty mapping instead errors), and the unwrap
rule is exactly the spec's on the whole registry domain. -/
theorem c5_amended_envelope_rule :
    (∀ j : PyVal, isNonemptyContainer j = true →
      internal_xmlify j = .ok (specEnvelopeWrap j)) ∧
    (∀ j : PyVal, isDictOrList j = true →
      remove_internal_xmlify j = .ok (specEnvelopeUnwrap j)) := by
  constructor
  · intro j h
    match j with
    | .list xs => rfl
    | .dict ((k, v) :: rest) =>
      match rest with
      | [] =>
        cases v <;> rfl
      | m :: rest2 =>
        have hlen : ((k, v) :: m :: rest2).length > 1 := by simp
        simp only [internal_xmlify, hlen, if_pos, internalXmlifySecondWrap,
          specEnvelopeWrap]
  · intro j h
    match j with
    | .list xs => rfl
    | .dict [] => rfl
    | .dict [(k, v)] =>
      cases k <;>
        simp [remove_internal_xmlify, specEnvelopeUnwrap, pyBeq, envelopeKey] <;>
        split <;> rfl
    | .dict ((k, v) :: m :: rest) => cases k <;> rfl

/-- C5 witness: the wrap at a singleton list (double wrap) and the unwrap
at an enveloped value. -/
theorem c5_amended_envelope_rule_witness :
    internal_xmlify (.list [.int 1]) = .ok (specEnvelopeWrap (.list [.int 1])) ∧
    remove_internal_xmlify (.dict [(.str "jsonified_envelope", .int 7)])
      = .ok (specEnvelopeUnwrap (.dict [(.str "jsonified_envelope", .int 7)])) :=
  ⟨c5_amended_envelope_rule.1 _ rfl, c5_amended_envelope_rule.2 _ rfl⟩

/-! ## Claim C8 -/

/-- C8 counterexample: the claim says a pagination value lacking `offset`
fails with the validation error at construction too; `HttpEvent.__init__`
assigns `self._pagination` directly, bypassing the validating setter, so
construction succeeds and stores the invalid mapping. -/
theorem c8_construction_skips_validation :
    httpEventInit .HttpEvent "id" [] (.tuple [.int 200, .str "OK"]) []
      (.dict [(.str "limit", .int 1)]) Option.none Option.none .none []
      = .ok { httpSample with pagination := .dict [(.str "limit", .int 1)] } ∧
    ({ httpSample with pagination := .dict [(.str "limit", .int 1)] } : Evt).pagination
      = .dict [(.str "limit", .int 1)] :=
  ⟨rfl, rfl⟩

/-- C8 amended: assignment through the `pagination` setter of a mapping
missing `limit` or `offset` fails with the validation error
(`ValueError`, the spec's `InvalidPaginationSpec`) and, the setter failing
before any write, leaves the stored pagination unchanged; a mapping with
both keys is stored and retrievable unchanged; construction, however,
stores whatever pagination value it is given without validating. -/
theorem c8_amended_pagination_validation :
    (∀ (e : Evt) (es : List (PyVal × PyVal)),
      (dictHasKey es (.str "limit") && dictHasKey es (.str "offset")) = false →
      setPagination e (.dict es) = .error .valueError) ∧
    (∀ (e : Evt) (es : List (PyVal × PyVal)),
      (dictHasKey es (.str "limit") && dictHasKey es (.str "offset")) = true →
      setPagination e (.dict es) = .ok { e with pagination := .dict es }) ∧
    httpEventInit .HttpEvent "id" [] (.tuple [.int 200, .str "OK"]) []
      (.dict [(.str "limit", .int 1)]) Option.none Option.none .none []
      = .ok { httpSample with pagination := .dict [(.str "limit", .int 1)] } := by
  refine ⟨fun e es h => ?_, fun e es h => ?_, rfl⟩ <;> simp [setPagination, h]

/-- C8 witness: the setter at a mapping missing `offset` and at a complete
mapping. -/
theorem c8_amended_pagination_validation_witness :
    setPagination httpSample (.dict [(.str "limit", .int 1)]) = .error .valueError ∧
    setPagination httpSample (.dict [(.str "limit", .int 1), (.str "offset", .int 0)])
      = .ok { httpSample with
          pagination := .dict [(.str "limit", .int 1), (.str "offset", .int 0)] } :=
  ⟨c8_amended_pagination_validation.1 httpSample _ rfl,
   c8_amended_pagination_validation.2.1 httpSample _ rfl⟩

/-! ## Claim C9 -/

/-- C9 counterexample: the claim's step order (sequence-index first, and
only on sequences) returns null for step `"1"` on an integer-keyed dict,
but `lookup` tries `obj.get` first and integer subscripting last on any
subscriptable value, so `d[int("1")]` finds the entry. -/
theorem c9_lookup_order_counterexample :
    eventInit .Event "id" Option.none Option.none (.dict [(.int 1, .str "a")])
      [("tag", .str "x")] = .ok intKeyedEvent ∧
    lookup intKeyedEvent (.inr [.strKey "data", .strKey "1"]) = .val (.str "a") ∧
    claimLookup intKeyedEvent (.inr [.strKey "data", .strKey "1"]) = .val .none ∧
    LVal.val (.str "a") ≠ LVal.val .none :=
  ⟨rfl, rfl, rfl, by simp⟩

/-! ## Claim C10 -/

/-- C10 counterexample: the claim exempts only pairs, but the status setter
stores any tuple as given, so assigning a non-pair triple is not a silent
no-op: it replaces the stored status. -/
theorem c10_nonpair_tuple_stored :
    setStatus httpSample (.tuple [.int 1, .int 2, .int 3])
      = .ok { httpSample with status := some (.tuple [.int 1, .int 2, .int 3]) } ∧
    httpSample.status ≠ some (.tuple [.int 1, .int 2, .int 3]) :=
  ⟨rfl, by simp [httpSample]⟩

/-- The status setter's string split finds nothing when no space or hyphen
occurs. -/
theorem splitOnce_eq_none (cs : List Char)
    (h : cs.any (fun c => c = ' ' || c = '-') = false) :
    setStatus.splitOnceSpaceHyphen cs = Option.none := by
  induction cs with
  | nil => rfl
  | cons c rest ih =>
    simp only [List.any_cons, Bool.or_eq_false_iff, decide_eq_false_iff_not] at h
    have hc : ¬ (c = ' ' ∨ c = '-') := fun hor => hor.elim h.1.1 h.1.2
    simp [setStatus.splitOnceSpaceHyphen, hc, ih h.2]

/-- C10 amended: assigning any value that is neither a tuple (of any arity,
not only a pair) nor a string containing a space or hyphen separator is a
silent no-op — no error, stored status unchanged; any tuple is stored as
given; and an `HttpEvent` constructed with such a status value (here the
bare string `"500"`) ends with no status stored, so a later status read
finds no attribute. -/
theorem c10_amended_status_silent_noop :
    (∀ (e : Evt) (v : PyVal), isTupleVal v = false → isSepString v = false →
      setStatus e v = .ok e) ∧
    (∀ (e : Evt) (xs : List PyVal),
      setStatus e (.tuple xs) = .ok { e with status := some (.tuple xs) }) ∧
    httpEventInit .HttpEvent "id" [] (.str "500") [] .none Option.none Option.none
      .none [] = .ok { httpSample with status := Option.none } ∧
    ({ httpSample with status := Option.none } : Evt).status = Option.none := by
  refine ⟨fun e v ht hs => ?_, fun e xs => rfl, rfl, rfl⟩
  cases v with
  | str s =>
    have : s.data.any (fun c => c = ' ' || c = '-') = false := by
      simpa [isSepString] using hs
    simp [setStatus, splitOnce_eq_none s.data this]
  | tuple xs => exact absurd ht (by simp [isTupleVal])
  | none => rfl
  | bool b => rfl
  | int n => rfl
  | list xs => rfl
  | dict es => rfl
  | xml t => rfl

/-- C10 witness: the bare string `"500"` and `None` are silent no-ops. -/
theorem c10_amended_status_silent_noop_witness :
    setStatus httpSample (.str "500") = .ok httpSample ∧
    setStatus httpSample .none = .ok httpSample :=
  ⟨c10_amended_status_silent_noop.1 httpSample _ rfl rfl,
   c10_amended_status_silent_noop.1 httpSample _ rfl rfl⟩

/-- One `lookup` fold step equals the amended description: `get` access
first, then attribute access, then integer-subscript access, with the
absent sentinel propagating. -/
theorem lookupStep_eq_amended (obj : LVal) (key : Step) :
    lookupStep obj key = amendedLookupStep obj key := by
  have hmap : ∀ (o : Option PyVal) (d : LVal),
      (match o.map LVal.val with | some r => r | Option.none => d)
        = (match o with | some v => LVal.val v | Option.none => d) := by
    intro o d; cases o <;> rfl
  cases obj with
  | nullLookup => rfl
  | evt e =>
    cases key with
    | strKey s =>
      simp only [lookupStep, amendedLookupStep, obj_get, amendedGet, claimAttr,
        lookup_getattr, list_get, amendedSubscript]
      cases evtGetattr e s <;> simp
    | intKey n => rfl
  | val v =>
    simp only [lookupStep, amendedLookupStep, obj_get, amendedGet, claimAttr,
      lookup_getattr, list_get, amendedSubscript, pySubscript]
    cases v with
    | dict es =>
      cases hdg : dictGet es (stepPyVal key) <;> simp [hdg] <;>
        cases hsi : stepToInt key <;> simp [hsi, hmap]
    | list xs => cases hsi : stepToInt key <;> simp [hsi, hmap]
    | tuple xs => cases hsi : stepToInt key <;> simp [hsi, hmap]
    | str s =>
      cases hsi : stepToInt key <;> simp [hsi, hmap]
      rename_i n
      cases seqIndex s.data n <;> rfl
    | none => cases hsi : stepToInt key <;> simp [hsi]
    | bool b => cases hsi : stepToInt key <;> simp [hsi]
    | int n => cases hsi : stepToInt key <;> simp [hsi]
    | xml t => cases hsi : stepToInt key <;> simp [hsi]

/-- C9 amended: `lookup` returns without raising for every event and path
(it is a total function on the embedded domain), resolving each step by
attempting, in order, mapping-key/`get` access, then attribute access,
then subscript access with the step coerced to an integer (which indexes
sequences and strings and also retrieves integer-keyed mapping entries),
the absent sentinel propagating and becoming a null result. -/
theorem c9_amended_lookup_order :
    ∀ (e : Evt) (path : Sum String (List Step)), lookup e path = amendedLookup e path := by
  have hstep : lookupStep = amendedLookupStep :=
    funext fun obj => funext fun key => lookupStep_eq_amended obj key
  intro e path
  simp [lookup, amendedLookup, hstep]

/-! ## Round-trip lemmas for the JSON printer and parser (claim C7) -/

theorem hexVal_hexDigitChar : ∀ d : Nat, d < 16 → hexVal (hexDigitChar d) = some d := by
  decide

theorem hex4Val_hex4 (n : Nat) (h : n < 65536) :
    hex4Val (hexDigitChar (n / 4096 % 16)) (hexDigitChar (n / 256 % 16))
      (hexDigitChar (n / 16 % 16)) (hexDigitChar (n % 16)) = some n := by
  have h3 : n / 4096 % 16 < 16 := Nat.mod_lt _ (by omega)
  have h2 : n / 256 % 16 < 16 := Nat.mod_lt _ (by omega)
  have h1 : n / 16 % 16 < 16 := Nat.mod_lt _ (by omega)
  have h0 : n % 16 < 16 := Nat.mod_lt _ (by omega)
  simp only [hex4Val, hexVal_hexDigitChar _ h3, hexVal_hexDigitChar _ h2,
    hexVal_hexDigitChar _ h1, hexVal_hexDigitChar _ h0, Option.bind_some,
    Option.some_bind, bind, Option.bind, pure]
  congr 1
  omega

theorem isDigitCh_decDigitChar : ∀ d : Nat, d < 10 → isDigitCh (decDigitChar d) = true := by
  decide

theorem toNat_decDigitChar : ∀ d : Nat, d < 10 → (decDigitChar d).toNat = 48 + d := by
  decide

theorem decDigitChar_ne_zeroChar : ∀ d : Nat, d < 10 → 0 < d → decDigitChar d ≠ '0' := by
  decide

theorem natReprAux_digits :
    ∀ fuel n, n < fuel → (natReprAux fuel n).all isDigitCh = true := by
  intro fuel
  induction fuel with
  | zero => intro n hn; omega
  | succ fuel ih =>
    intro n _
    by_cases h10 : n < 10
    · simp [natReprAux, h10, isDigitCh_decDigitChar n h10]
    · have hdiv : n / 10 < fuel := by omega
      simp [natReprAux, h10, List.all_append, ih _ hdiv,
        isDigitCh_decDigitChar (n % 10) (by omega)]

theorem natReprAux_ne_nil : ∀ fuel n, n < fuel → natReprAux fuel n ≠ [] := by
  intro fuel
  induction fuel with
  | zero => intro n hn; omega
  | succ fuel _ =>
    intro n _
    by_cases h10 : n < 10 <;> simp [natReprAux, h10]

theorem digitsToNat_natReprAux :
    ∀ fuel n, n < fuel → digitsToNat (natReprAux fuel n) = n := by
  intro fuel
  induction fuel with
  | zero => intro n hn; omega
  | succ fuel ih =>
    intro n _
    by_cases h10 : n < 10
    · simp [natReprAux, h10, digitsToNat, toNat_decDigitChar n h10]
    · have hdiv : n / 10 < fuel := by omega
      have hmod : n % 10 < 10 := by omega
      simp only [natReprAux, h10, if_false, digitsToNat, List.foldl_append]
      have := ih _ hdiv
      simp only [digitsToNat] at this
      simp [this, List.foldl, toNat_decDigitChar (n % 10) hmod]
      omega

theorem natReprAux_head :
    ∀ fuel n, n < fuel → 0 < n → (natReprAux fuel n).head? ≠ some '0' := by
  intro fuel
  induction fuel with
  | zero => intro n hn; omega
  | succ fuel ih =>
    intro n _ hpos
    by_cases h10 : n < 10
    · simpa [natReprAux, h10] using decDigitChar_ne_zeroChar n h10 hpos
    · have hdiv : n / 10 < fuel := by omega
      have hdivpos : 0 < n / 10 := by omega
      have hne := natReprAux_ne_nil fuel (n / 10) hdiv
      simp only [natReprAux, h10, if_false, List.head?_append]
      cases hh : (natReprAux fuel (n / 10)).head? with
      | none => exact absurd (List.head?_eq_none_iff.mp hh) hne
      | some c =>
        have := ih _ hdiv hdivpos
        rw [hh] at this
        simpa using this

theorem natRepr_digits (n : Nat) : (natRepr n).all isDigitCh = true :=
  natReprAux_digits (n + 1) n (by omega)

theorem natRepr_ne_nil (n : Nat) : natRepr n ≠ [] :=
  natReprAux_ne_nil (n + 1) n (by omega)

theorem digitsToNat_natRepr (n : Nat) : digitsToNat (natRepr n) = n :=
  digitsToNat_natReprAux (n + 1) n (by omega)

theorem natRepr_head (n : Nat) (h : 0 < n) : (natRepr n).head? ≠ some '0' :=
  natReprAux_head (n + 1) n (by omega) h

theorem takeDigits_append (ds t : List Char) (hds : ds.all isDigitCh = true)
    (ht : ∀ c, t.head? = some c → isDigitCh c = false) :
    takeDigits (ds ++ t) = (ds, t) := by
  induction ds with
  | nil =>
    cases t with
    | nil => rfl
    | cons c t' => simp [takeDigits, ht c rfl]
  | cons d ds ih =>
    simp only [List.all_cons, Bool.and_eq_true] at hds
    simp [takeDigits, hds.1, ih hds.2]

theorem numSafe_head (t : List Char) (ht : numSafe t = true) :
    ∀ c, t.head? = some c →
      isDigitCh c = false ∧ c ≠ '.' ∧ c ≠ 'e' ∧ c ≠ 'E' := by
  intro c hc
  simp only [numSafe, hc, Bool.and_eq_true, Bool.not_eq_true', decide_eq_true_eq,
    bne_iff_ne, ne_eq] at ht
  rcases ht with ⟨⟨⟨h1, h2⟩, h3⟩, h4⟩
  refine ⟨?_, h2, h3, h4⟩
  simpa using h1

theorem parseJsonNat_repr (n : Nat) (t : List Char) (ht : numSafe t = true) :
    parseJsonNat (natRepr n ++ t) = some (n, t) := by
  have htd := takeDigits_append (natRepr n) t (natRepr_digits n)
    (fun c hc => (numSafe_head t ht c hc).1)
  have hne := natRepr_ne_nil n
  have hnz : ¬ (1 < (natRepr n).length ∧ (natRepr n).head? = some '0') := by
    rintro ⟨hlen, hzero⟩
    by_cases hn : 0 < n
    · exact natRepr_head n hn hzero
    · have : n = 0 := by omega
      subst this
      simp [natRepr, natReprAux] at hlen
  have hfl : ¬ (t.head? = some '.' ∨ t.head? = some 'e' ∨ t.head? = some 'E') := by
    rintro (hc | hc | hc) <;>
      first
      | exact (numSafe_head t ht _ hc).2.1 rfl
      | exact (numSafe_head t ht _ hc).2.2.1 rfl
      | exact (numSafe_head t ht _ hc).2.2.2 rfl
  simp [parseJsonNat, htd, hne, hnz, hfl, digitsToNat_natRepr n]

theorem digitCh_facts (c : Char) (h : isDigitCh c = true) :
    isWs c = false ∧ c ≠ ']' ∧ c ≠ '\x7d' ∧ c ≠ 'n' ∧ c ≠ 't' ∧ c ≠ 'f' ∧
      c ≠ '"' ∧ c ≠ '[' ∧ c ≠ '\x7b' := by
  refine ⟨?_, ?_, ?_, ?_, ?_, ?_, ?_, ?_, ?_⟩
  · by_cases h1 : c = ' '
    · subst h1; exact absurd h (by decide)
    by_cases h2 : c = '\t'
    · subst h2; exact absurd h (by decide)
    by_cases h3 : c = '\n'
    · subst h3; exact absurd h (by decide)
    by_cases h4 : c = '\r'
    · subst h4; exact absurd h (by decide)
    simp [isWs, h1, h2, h3, h4]
  all_goals rintro rfl; exact absurd h (by decide)

theorem parseStringBody_surrogatePair (fuel n m : Nat) (t : List Char)
    (hn : 0xD800 ≤ n ∧ n ≤ 0xDBFF) (hm : 0xDC00 ≤ m ∧ m ≤ 0xDFFF)
    (hn2 : n < 65536) (hm2 : m < 65536) :
    parseStringBody (fuel + 1)
      (('\\' :: 'u' :: hex4 n) ++ ('\\' :: 'u' :: hex4 m) ++ t)
      = (parseStringBody fuel t).bind fun p =>
          some (Char.ofNat (0x10000 + (n - 0xD800) * 0x400 + (m - 0xDC00)) :: p.1, p.2) := by
  simp only [hex4, List.cons_append, List.nil_append, List.append_assoc]
  rw [parseStringBody.eq_def]
  simp only [reduceIte]
  rw [hex4Val_hex4 _ hn2]
  simp only [Option.some_bind, bind, Option.bind]
  rw [if_neg (show ¬ ('\\' = '"') by decide)]
  rw [if_pos hn]
  rw [hex4Val_hex4 _ hm2]
  simp only [Option.some_bind, bind, Option.bind]
  rw [if_pos hm]
  cases parseStringBody fuel t <;> rfl

/-- Reading one printed character back: the parser decodes exactly the
escape (or literal) `json.dumps` wrote for `c` and continues. -/
theorem parseStringBody_escapeChar (fuel : Nat) (c : Char) (t : List Char) :
    parseStringBody (fuel + 1) (escapeChar c ++ t)
      = (parseStringBody fuel t).bind fun p => some (c :: p.1, p.2) := by
  have hv : c.toNat < 0xD800 ∨ (0xDFFF < c.toNat ∧ c.toNat < 0x110000) := by
    rcases c.valid with h | ⟨a, b⟩
    · exact Or.inl h
    · exact Or.inr ⟨a, b⟩
  by_cases h1 : c = '"'
  · subst h1
    rw [show parseStringBody (fuel + 1) (escapeChar '"' ++ t)
        = (parseStringBody fuel t).bind (fun p => some ('"' :: p.1, p.2)) from rfl]
  by_cases h2 : c = '\\'
  · subst h2
    rw [show parseStringBody (fuel + 1) (escapeChar '\\' ++ t)
        = (parseStringBody fuel t).bind (fun p => some ('\\' :: p.1, p.2)) from rfl]
  by_cases h3 : 0x20 ≤ c.toNat ∧ c.toNat ≤ 0x7E
  · have he : escapeChar c = [c] := by
      simp [escapeChar, h1, h2, h3]
    rw [he, List.cons_append, List.nil_append, parseStringBody.eq_def]
    simp only []
    rw [if_neg h1, if_neg h2, if_neg (show ¬ c.toNat < 0x20 by omega)]
    rfl
  by_cases h4 : c.toNat = 8
  · have he : escapeChar c = ['\\', 'b'] := by
      simp [escapeChar, h1, h2, h3, h4]
    have hc : Char.ofNat 8 = c := by rw [← h4, Char.ofNat_toNat]
    rw [he]
    simp only [List.cons_append, List.nil_append]
    rw [show parseStringBody (fuel + 1) ('\\' :: 'b' :: t)
        = (parseStringBody fuel t).bind (fun p => some (Char.ofNat 8 :: p.1, p.2)) from rfl, hc]
  by_cases h5 : c.toNat = 9
  · have he : escapeChar c = ['\\', 't'] := by
      simp [escapeChar, h1, h2, h3, h4, h5]
    have hc : Char.ofNat 9 = c := by rw [← h5, Char.ofNat_toNat]
    rw [he]
    simp only [List.cons_append, List.nil_append]
    rw [show parseStringBody (fuel + 1) ('\\' :: 't' :: t)
        = (parseStringBody fuel t).bind (fun p => some (Char.ofNat 9 :: p.1, p.2)) from rfl, hc]
  by_cases h6 : c.toNat = 10
  · have he : escapeChar c = ['\\', 'n'] := by
      simp [escapeChar, h1, h2, h3, h4, h5, h6]
    have hc : Char.ofNat 10 = c := by rw [← h6, Char.ofNat_toNat]
    rw [he]
    simp only [List.cons_append, List.nil_append]
    rw [show parseStringBody (fuel + 1) ('\\' :: 'n' :: t)
        = (parseStringBody fuel t).bind (fun p => some (Char.ofNat 10 :: p.1, p.2)) from rfl, hc]
  by_cases h7 : c.toNat = 12
  · have he : escapeChar c = ['\\', 'f'] := by
      simp [escapeChar, h1, h2, h3, h4, h5, h6, h7]
    have hc : Char.ofNat 12 = c := by rw [← h7, Char.ofNat_toNat]
    rw [he]
    simp only [List.cons_append, List.nil_append]
    rw [show parseStringBody (fuel + 1) ('\\' :: 'f' :: t)
        = (parseStringBody fuel t).bind (fun p => some (Char.ofNat 12 :: p.1, p.2)) from rfl, hc]
  by_cases h8 : c.toNat = 13
  · have he : escapeChar c = ['\\', 'r'] := by
      simp [escapeChar, h1, h2, h3, h4, h5, h6, h7, h8]
    have hc : Char.ofNat 13 = c := by rw [← h8, Char.ofNat_toNat]
    rw [he]
    simp only [List.cons_append, List.nil_append]
    rw [show parseStringBody (fuel + 1) ('\\' :: 'r' :: t)
        = (parseStringBody fuel t).bind (fun p => some (Char.ofNat 13 :: p.1, p.2)) from rfl, hc]
  by_cases h9 : c.toNat < 0x10000
  · have he : escapeChar c = '\\' :: 'u' :: hex4 c.toNat := by
      simp [escapeChar, h1, h2, h3, h4, h5, h6, h7, h8, h9]
    rw [he]
    simp only [hex4, List.cons_append, List.nil_append]
    rw [parseStringBody.eq_def]
    simp only [reduceIte]
    rw [hex4Val_hex4 c.toNat (by omega)]
    simp only [Option.some_bind, bind, Option.bind]
    rw [if_neg (show ¬ ('\\' = '"') by decide)]
    rw [if_neg (show ¬ (0xD800 ≤ c.toNat ∧ c.toNat ≤ 0xDBFF) by omega),
      if_neg (show ¬ (0xDC00 ≤ c.toNat ∧ c.toNat ≤ 0xDFFF) by omega)]
    rw [show (Char.ofNat c.toNat) = c from Char.ofNat_toNat c]
    cases parseStringBody fuel t <;> rfl
  · have he : escapeChar c
        = ('\\' :: 'u' :: hex4 (0xD800 + (c.toNat - 0x10000) / 0x400))
          ++ ('\\' :: 'u' :: hex4 (0xDC00 + (c.toNat - 0x10000) % 0x400)) := by
      simp [escapeChar, h1, h2, h3, h4, h5, h6, h7, h8, h9]
    have hstep := parseStringBody_surrogatePair fuel
      (0xD800 + (c.toNat - 0x10000) / 0x400) (0xDC00 + (c.toNat - 0x10000) % 0x400) t
      (by constructor <;> omega) (by constructor <;> omega) (by omega) (by omega)
    rw [he, hstep]
    have harg : 0x10000 + (0xD800 + (c.toNat - 0x10000) / 0x400 - 0xD800) * 0x400
        + (0xDC00 + (c.toNat - 0x10000) % 0x400 - 0xDC00) = c.toNat := by omega
    rw [harg, show (Char.ofNat c.toNat) = c from Char.ofNat_toNat c]

theorem escapeChar_ne_nil (c : Char) : escapeChar c ≠ [] := by
  unfold escapeChar
  split_ifs <;> simp [hex4]

theorem escapeString_length (cs : List Char) : cs.length ≤ (escapeString cs).length := by
  induction cs with
  | nil => simp [escapeString]
  | cons c cs ih =>
    have := escapeChar_ne_nil c
    have hpos : 1 ≤ (escapeChar c).length := by
      cases h : escapeChar c with
      | nil => exact absurd h this
      | cons a l => simp
    simp only [escapeString, List.length_append, List.length_cons]
    omega

/-- Reading a whole printed string body back. -/
theorem parseStringBody_escapeString (cs : List Char) :
    ∀ (fuel : Nat) (t : List Char), cs.length < fuel →
      parseStringBody fuel (escapeString cs ++ '"' :: t) = some (cs, t) := by
  induction cs with
  | nil =>
    intro fuel t hf
    match fuel with
    | fuel + 1 => rfl
  | cons c cs ih =>
    intro fuel t hf
    match fuel with
    | fuel + 1 =>
      have hlen : cs.length < fuel := by
        simp only [List.length_cons] at hf
        omega
      rw [show escapeString (c :: cs) = escapeChar c ++ escapeString cs from rfl,
        List.append_assoc, parseStringBody_escapeChar fuel c _, ih fuel t hlen]
      rfl

/-- Reading a whole printed string literal back, with the parser's own
input-length fuel. -/
theorem parseStringBody_quote (s : String) (t : List Char) :
    parseStringBody ((escapeString s.data ++ '"' :: t).length + 1)
      (escapeString s.data ++ '"' :: t) = some (s.data, t) := by
  apply parseStringBody_escapeString
  have := escapeString_length s.data
  simp only [List.length_append, List.length_cons]
  omega

theorem parseJsonNumber_intRepr (i : Int) (t : List Char) (ht : numSafe t = true) :
    parseJsonNumber (intRepr i ++ t) = some (.int i, t) := by
  cases i with
  | ofNat m =>
    obtain ⟨d, ds, hcons⟩ : ∃ d ds, natRepr m = d :: ds := by
      cases h : natRepr m with
      | nil => exact absurd h (natRepr_ne_nil m)
      | cons d ds => exact ⟨d, ds, rfl⟩
    have hdig : isDigitCh d = true := by
      have := natRepr_digits m
      rw [hcons] at this
      simp only [List.all_cons, Bool.and_eq_true] at this
      exact this.1
    have hm : d ≠ '-' := by
      rintro rfl
      simp [isDigitCh] at hdig
    have hh : (intRepr (Int.ofNat m) ++ t).head? ≠ some '-' := by
      simp [intRepr, hcons, hm]
    simp only [parseJsonNumber, hh, if_neg, reduceIte]
    rw [show intRepr (Int.ofNat m) = natRepr m from rfl, parseJsonNat_repr m t ht]
    simp [bind, Option.bind, pure]
  | negSucc m =>
    have : intRepr (Int.negSucc m) ++ t = '-' :: (natRepr (m + 1) ++ t) := by
      simp [intRepr]
    rw [this]
    simp only [parseJsonNumber, List.head?_cons, List.tail_cons, reduceIte]
    rw [parseJsonNat_repr (m + 1) t ht]
    simp [bind, Option.bind, pure, Int.negSucc_eq]

set_option maxHeartbeats 2000000 in
/-- When the first character is none of the scanner's dispatch characters,
the value parser hands the input to the number parser. -/
theorem parseJsonVal_number (fuel : Nat) (c : Char) (tail : List Char)
    (h1 : c ≠ 'n') (h2 : c ≠ 't') (h3 : c ≠ 'f') (h4 : c ≠ '"')
    (h5 : c ≠ '[') (h6 : c ≠ '\x7b') :
    parseJsonVal (fuel + 1) (c :: tail) = parseJsonNumber (c :: tail) := by
  rw [parseJsonVal.eq_def]
  simp only []
  rw [if_neg h1, if_neg h2, if_neg h3, if_neg h4, if_neg h5, if_neg h6]

/-- Reading a printed integer back through the value parser. -/
theorem parseJsonVal_intRepr (fuel : Nat) (i : Int) (t : List Char)
    (ht : numSafe t = true) :
    parseJsonVal (fuel + 1) (intRepr i ++ t) = some (.int i, t) := by
  cases i with
  | ofNat m =>
    obtain ⟨d, ds, hcons⟩ : ∃ d ds, natRepr m = d :: ds := by
      cases h : natRepr m with
      | nil => exact absurd h (natRepr_ne_nil m)
      | cons d ds => exact ⟨d, ds, rfl⟩
    have hdig : isDigitCh d = true := by
      have := natRepr_digits m
      rw [hcons] at this
      simp only [List.all_cons, Bool.and_eq_true] at this
      exact this.1
    obtain ⟨_, _, _, hn, htt, hf, hq, hb, hbr⟩ := digitCh_facts d hdig
    have hshape : intRepr (Int.ofNat m) ++ t = d :: (ds ++ t) := by
      simp [intRepr, hcons]
    rw [hshape, parseJsonVal_number fuel d _ hn htt hf hq hb hbr,
      show d :: (ds ++ t) = (d :: ds) ++ t from rfl, ← hcons,
      show natRepr m ++ t = intRepr (Int.ofNat m) ++ t from rfl,
      parseJsonNumber_intRepr _ t ht]
  | negSucc m =>
    have hshape : intRepr (Int.negSucc m) ++ t = '-' :: (natRepr (m + 1) ++ t) := by
      simp [intRepr]
    rw [hshape, parseJsonVal_number fuel '-' _ (by decide) (by decide) (by decide)
      (by decide) (by decide) (by decide),
      show '-' :: (natRepr (m + 1) ++ t) = intRepr (Int.negSucc m) ++ t by simp [intRepr],
      parseJsonNumber_intRepr _ t ht]

set_option maxHeartbeats 2000000 in
/-- Reading a printed string literal back through the value parser. -/
theorem parseJsonVal_quoteString (fuel : Nat) (s : String) (t : List Char) :
    parseJsonVal (fuel + 1) (quoteString s ++ t) = some (.str s, t) := by
  have hsh : quoteString s ++ t = '"' :: (escapeString s.data ++ '"' :: t) := by
    simp [quoteString]
  rw [hsh, parseJsonVal.eq_def]
  simp only []
  rw [if_neg (by decide), if_neg (by decide), if_neg (by decide)]
  simp only [if_true]
  rw [parseStringBody_quote s t]
  rfl

/-- The first character of any canonical value's printed form: never
whitespace and never a closing bracket. -/
theorem dumpsVal_head (v : PyVal) (out : List Char) (hc : canonB v = true)
    (hd : dumpsVal v = some out) :
    ∃ c cs, out = c :: cs ∧ isWs c = false ∧ c ≠ ']' ∧ c ≠ '\x7d' := by
  cases v with
  | none =>
    rw [show dumpsVal .none = some ['n', 'u', 'l', 'l'] from rfl] at hd
    refine ⟨'n', _, by simpa using hd.symm, by decide, by decide, by decide⟩
  | bool b =>
    cases b with
    | true =>
      rw [show dumpsVal (.bool true) = some ['t', 'r', 'u', 'e'] from rfl] at hd
      refine ⟨'t', _, by simpa using hd.symm, by decide, by decide, by decide⟩
    | false =>
      rw [show dumpsVal (.bool false) = some ['f', 'a', 'l', 's', 'e'] from rfl] at hd
      refine ⟨'f', _, by simpa using hd.symm, by decide, by decide, by decide⟩
  | int n =>
    rw [show dumpsVal (.int n) = some (intRepr n) from rfl] at hd
    have hout : out = intRepr n := by simpa using hd.symm
    cases n with
    | ofNat m =>
      obtain ⟨d, ds, hcons⟩ : ∃ d ds, natRepr m = d :: ds := by
        cases h : natRepr m with
        | nil => exact absurd h (natRepr_ne_nil m)
        | cons d ds => exact ⟨d, ds, rfl⟩
      have hdig : isDigitCh d = true := by
        have := natRepr_digits m
        rw [hcons] at this
        simp only [List.all_cons, Bool.and_eq_true] at this
        exact this.1
      obtain ⟨hws, hr, hbr, _⟩ := digitCh_facts d hdig
      exact ⟨d, ds, by simp [hout, intRepr, hcons], hws, hr, hbr⟩
    | negSucc m =>
      exact ⟨'-', natRepr (m + 1) , by simp [hout, intRepr], by decide, by decide, by decide⟩
  | str s =>
    rw [show dumpsVal (.str s) = some (quoteString s) from rfl] at hd
    have hout : out = quoteString s := by simpa using hd.symm
    exact ⟨'"', escapeString s.data ++ ['"'], by simp [hout, quoteString], by decide, by decide, by decide⟩
  | list xs =>
    rw [show dumpsVal (.list xs)
        = (dumpsElems xs).bind (fun body => some ('[' :: body ++ [']'])) from rfl] at hd
    cases hb : dumpsElems xs with
    | none => rw [hb] at hd; exact absurd hd (by simp)
    | some body =>
      rw [hb] at hd
      have hout : out = '[' :: body ++ [']'] := by simpa using hd.symm
      exact ⟨'[', body ++ [']'], by simp [hout], by decide, by decide, by decide⟩
  | dict es =>
    rw [show dumpsVal (.dict es)
        = (dumpsEntries es).bind (fun body => some ('\x7b' :: body ++ ['\x7d'])) from rfl] at hd
    cases hb : dumpsEntries es with
    | none => rw [hb] at hd; exact absurd hd (by simp)
    | some body =>
      rw [hb] at hd
      have hout : out = '\x7b' :: body ++ ['\x7d'] := by simpa using hd.symm
      exact ⟨'\x7b', body ++ ['\x7d'], by simp [hout], by decide, by decide, by decide⟩
  | tuple xs => exact absurd hc (by simp [canonB])
  | xml t => exact absurd hc (by simp [canonB])

/-- The first character of a non-empty element list's printed form. -/
theorem dumpsElems_head (xs : List PyVal) (body : List Char)
    (hc : canonListB xs = true) (hne : xs ≠ []) (hd : dumpsElems xs = some body) :
    ∃ c cs, body = c :: cs ∧ isWs c = false ∧ c ≠ ']' ∧ c ≠ '\x7d' := by
  cases xs with
  | nil => exact absurd rfl hne
  | cons x xs' =>
    have hcx : canonB x = true := by
      simp only [canonListB, Bool.and_eq_true] at hc
      exact hc.1
    cases xs' with
    | nil =>
      exact dumpsVal_head x body hcx (by simpa [dumpsElems] using hd)
    | cons y ys =>
      rw [show dumpsElems (x :: y :: ys)
          = (dumpsVal x).bind (fun a => (dumpsElems (y :: ys)).bind
              (fun b => some (a ++ ',' :: ' ' :: b))) from rfl] at hd
      cases ha : dumpsVal x with
      | none => rw [ha] at hd; exact absurd hd (by simp)
      | some a =>
        rw [ha] at hd
        cases hb : dumpsElems (y :: ys) with
        | none => rw [hb] at hd; exact absurd hd (by simp)
        | some b =>
          rw [hb] at hd
          have hbody : body = a ++ ',' :: ' ' :: b := by simpa using hd.symm
          obtain ⟨c, cs, hcons, hws, hr, hbr⟩ := dumpsVal_head x a hcx ha
          exact ⟨c, cs ++ ',' :: ' ' :: b, by simp [hbody, hcons], hws, hr, hbr⟩

/-- The first character of a non-empty member list's printed form is the
opening quote of its first (string) key. -/
theorem dumpsEntries_head (es : List (PyVal × PyVal)) (body : List Char)
    (hc : canonEntriesB es = true) (hne : es ≠ []) (hd : dumpsEntries es = some body) :
    ∃ cs, body = '"' :: cs := by
  cases es with
  | nil => exact absurd rfl hne
  | cons kv rest =>
    obtain ⟨k, v⟩ := kv
    have hk : ∃ ks, k = PyVal.str ks := by
      simp only [canonEntriesB, Bool.and_eq_true] at hc
      cases k with
      | str ks => exact ⟨ks, rfl⟩
      | none => simpa using hc.1.1
      | bool b => simpa using hc.1.1
      | int n => simpa using hc.1.1
      | tuple xs => simpa using hc.1.1
      | list xs => simpa using hc.1.1
      | dict es2 => simpa using hc.1.1
      | xml t => simpa using hc.1.1
    obtain ⟨ks, rfl⟩ := hk
    cases rest with
    | nil =>
      rw [show dumpsEntries [(PyVal.str ks, v)]
          = (dumpsVal v).bind (fun vs => some (quoteString ks ++ ':' :: ' ' :: vs))
          from by cases hv : dumpsVal v <;> simp [dumpsEntries, dumpsKey, hv, bind, Option.bind]] at hd
      cases hv : dumpsVal v with
      | none => rw [hv] at hd; exact absurd hd (by simp)
      | some vs =>
        rw [hv] at hd
        exact ⟨_, by simpa [quoteString] using hd.symm⟩
    | cons m ms =>
      rw [show dumpsEntries ((PyVal.str ks, v) :: m :: ms)
          = (dumpsVal v).bind (fun vs => (dumpsEntries (m :: ms)).bind
              (fun b => some (quoteString ks ++ ':' :: ' ' :: vs ++ ',' :: ' ' :: b)))
          from by
            cases hv : dumpsVal v <;>
              cases hb : dumpsEntries (m :: ms) <;>
                simp [dumpsEntries, dumpsKey, hv, hb, bind, Option.bind]] at hd
      cases hv : dumpsVal v with
      | none => rw [hv] at hd; exact absurd hd (by simp)
      | some vs =>
        rw [hv] at hd
        cases hb : dumpsEntries (m :: ms) with
        | none => rw [hb] at hd; exact absurd hd (by simp)
        | some b =>
          rw [hb] at hd
          exact ⟨_, by simpa [quoteString] using hd.symm⟩

set_option maxHeartbeats 4000000 in
/-- The printer/parser round trip, by induction on parser fuel: any
canonical value's printed form, followed by a number-safe remainder, is
read back as exactly that value (with the corresponding statements for
array element lists and object member lists). -/
theorem parseJson_dumps :
    ∀ fuel : Nat,
      (∀ (v : PyVal) (out rest : List Char), canonB v = true →
        dumpsVal v = some out → pweight v ≤ fuel → numSafe rest = true →
        parseJsonVal fuel (out ++ rest) = some (v, rest)) ∧
      (∀ (xs : List PyVal) (out : List Char) (acc : List PyVal) (rest : List Char),
        canonListB xs = true → xs ≠ [] → dumpsElems xs = some out →
        pweightList xs ≤ fuel →
        parseJsonElems fuel (out ++ ']' :: rest) acc = some (.list (acc ++ xs), rest)) ∧
      (∀ (es : List (PyVal × PyVal)) (out : List Char)
        (acc : List (PyVal × PyVal)) (rest : List Char),
        canonEntriesB es = true → es ≠ [] → dumpsEntries es = some out →
        pweightEntries es ≤ fuel →
        parseJsonMembers fuel (out ++ '\x7d' :: rest) acc = some (.dict (acc ++ es), rest)) := by
  intro fuel
  induction fuel with
  | zero =>
    refine ⟨?_, ?_, ?_⟩
    · intro v out rest _ _ hw _
      exfalso
      cases v <;> simp [pweight] at hw
    · intro xs out acc rest _ hne _ hw
      exfalso
      cases xs with
      | nil => exact hne rfl
      | cons x xs' => simp [pweightList] at hw
    · intro es out acc rest _ hne _ hw
      exfalso
      cases es with
      | nil => exact hne rfl
      | cons e es' => obtain ⟨k, v⟩ := e; simp [pweightEntries] at hw
  | succ fuel ih =>
    obtain ⟨ihP, ihQ, ihR⟩ := ih
    refine ⟨?_, ?_, ?_⟩
    · -- values
      intro v out rest hc hd hw hns
      cases v with
      | none =>
        rw [show dumpsVal .none = some ['n', 'u', 'l', 'l'] from rfl,
          Option.some.injEq] at hd
        rw [← hd]
        rfl
      | bool b =>
        cases b with
        | true =>
          rw [show dumpsVal (.bool true) = some ['t', 'r', 'u', 'e'] from rfl,
            Option.some.injEq] at hd
          rw [← hd]
          rfl
        | false =>
          rw [show dumpsVal (.bool false) = some ['f', 'a', 'l', 's', 'e'] from rfl,
            Option.some.injEq] at hd
          rw [← hd]
          rfl
      | int n =>
        rw [show dumpsVal (.int n) = some (intRepr n) from rfl,
          Option.some.injEq] at hd
        rw [← hd]
        exact parseJsonVal_intRepr fuel n rest hns
      | str s =>
        rw [show dumpsVal (.str s) = some (quoteString s) from rfl,
          Option.some.injEq] at hd
        rw [← hd]
        exact parseJsonVal_quoteString fuel s rest
      | tuple xs => exact absurd hc (by simp [canonB])
      | xml t => exact absurd hc (by simp [canonB])
      | list xs =>
        have hb : ∃ body, dumpsElems xs = some body ∧ out = '[' :: body ++ [']'] := by
          rw [show dumpsVal (.list xs)
              = (dumpsElems xs).bind (fun body => some ('[' :: body ++ [']'])) from rfl] at hd
          cases hbb : dumpsElems xs with
          | none => rw [hbb] at hd; simp at hd
          | some body =>
            rw [hbb] at hd
            exact ⟨body, rfl, by simpa using hd.symm⟩
        obtain ⟨body, hbody, hout⟩ := hb
        subst hout
        rw [show ('[' :: body ++ [']']) ++ rest = '[' :: (body ++ ']' :: rest) by simp]
        cases xs with
        | nil =>
          have hbnil : body = [] := by
            rw [show dumpsElems [] = some [] from rfl, Option.some.injEq] at hbody
            exact hbody.symm
          subst hbnil
          rfl
        | cons x xs' =>
          obtain ⟨c0, cs0, hb0, hws0, hr0, _⟩ := dumpsElems_head (x :: xs') body
            (by simpa [canonB] using hc) (by simp) hbody
          rw [parseJsonVal.eq_def]
          simp only []
          rw [if_neg (by decide), if_neg (by decide), if_neg (by decide),
            if_neg (by decide)]
          simp only [if_true]
          rw [hb0, List.cons_append, List.dropWhile_cons_of_neg (by simp [hws0])]
          rw [if_neg (by simp [hr0])]
          rw [← List.cons_append, ← hb0]
          have := ihQ (x :: xs') body [] rest (by simpa [canonB] using hc) (by simp)
            hbody (by simp [pweight] at hw; omega)
          simpa using this
      | dict es =>
        have hb : ∃ body, dumpsEntries es = some body ∧ out = '\x7b' :: body ++ ['\x7d'] := by
          rw [show dumpsVal (.dict es)
              = (dumpsEntries es).bind (fun body => some ('\x7b' :: body ++ ['\x7d'])) from rfl] at hd
          cases hbb : dumpsEntries es with
          | none => rw [hbb] at hd; simp at hd
          | some body =>
            rw [hbb] at hd
            exact ⟨body, rfl, by simpa using hd.symm⟩
        obtain ⟨body, hbody, hout⟩ := hb
        subst hout
        rw [show ('\x7b' :: body ++ ['\x7d']) ++ rest = '\x7b' :: (body ++ '\x7d' :: rest) by simp]
        cases es with
        | nil =>
          have hbnil : body = [] := by
            rw [show dumpsEntries [] = some [] from rfl, Option.some.injEq] at hbody
            exact hbody.symm
          subst hbnil
          rfl
        | cons e es' =>
          obtain ⟨cs0, hb0⟩ := dumpsEntries_head (e :: es') body
            (by simpa [canonB] using hc) (by simp) hbody
          rw [parseJsonVal.eq_def]
          simp only []
          rw [if_neg (by decide), if_neg (by decide), if_neg (by decide),
            if_neg (by decide), if_neg (by decide)]
          simp only [if_true]
          rw [hb0, List.cons_append, List.dropWhile_cons_of_neg (by simp [isWs])]
          rw [if_neg (by simp)]
          rw [← List.cons_append, ← hb0]
          have := ihR (e :: es') body [] rest (by simpa [canonB] using hc) (by simp)
            hbody (by simp [pweight] at hw; omega)
          simpa using this
    · -- array elements
      intro xs out acc rest hc hne hd hw
      cases xs with
      | nil => exact absurd rfl hne
      | cons x xs' =>
        have hcx : canonB x = true := by
          simp only [canonListB, Bool.and_eq_true] at hc
          exact hc.1
        cases xs' with
        | nil =>
          have hdx : dumpsVal x = some out := by
            simpa [dumpsElems] using hd
          have hP := ihP x out (']' :: rest) hcx hdx
            (by simp only [pweightList] at hw; omega) rfl
          rw [show parseJsonElems (fuel + 1) (out ++ ']' :: rest) acc
              = (parseJsonVal fuel (out ++ ']' :: rest)).bind
                  (fun p =>
                    match (p.2).dropWhile isWs with
                    | ',' :: r2 => parseJsonElems fuel (r2.dropWhile isWs) (acc ++ [p.1])
                    | ']' :: r2 => some (.list (acc ++ [p.1]), r2)
                    | _ => Option.none) from rfl, hP]
          rfl
        | cons y ys =>
          have hsplit : ∃ a b, dumpsVal x = some a ∧ dumpsElems (y :: ys) = some b ∧
              out = a ++ ',' :: ' ' :: b := by
            rw [show dumpsElems (x :: y :: ys)
                = (dumpsVal x).bind (fun a => (dumpsElems (y :: ys)).bind
                    (fun b => some (a ++ ',' :: ' ' :: b))) from rfl] at hd
            cases ha : dumpsVal x with
            | none => rw [ha] at hd; simp at hd
            | some a =>
              rw [ha] at hd
              cases hbb : dumpsElems (y :: ys) with
              | none => rw [hbb] at hd; simp at hd
              | some b =>
                rw [hbb] at hd
                exact ⟨a, b, rfl, rfl, by simpa using hd.symm⟩
          obtain ⟨a, b, ha, hbb, hout⟩ := hsplit
          subst hout
          have hctail : canonListB (y :: ys) = true := by
            simp only [canonListB, Bool.and_eq_true] at hc ⊢
            exact hc.2
          have hP := ihP x a (',' :: ' ' :: (b ++ ']' :: rest)) hcx ha
            (by simp only [pweightList] at hw; omega) rfl
          rw [show (a ++ ',' :: ' ' :: b) ++ ']' :: rest
              = a ++ (',' :: ' ' :: (b ++ ']' :: rest)) by simp]
          rw [show parseJsonElems (fuel + 1) (a ++ (',' :: ' ' :: (b ++ ']' :: rest))) acc
              = (parseJsonVal fuel (a ++ (',' :: ' ' :: (b ++ ']' :: rest)))).bind
                  (fun p =>
                    match (p.2).dropWhile isWs with
                    | ',' :: r2 => parseJsonElems fuel (r2.dropWhile isWs) (acc ++ [p.1])
                    | ']' :: r2 => some (.list (acc ++ [p.1]), r2)
                    | _ => Option.none) from rfl, hP]
          simp only [Option.some_bind]
          obtain ⟨c0, cs0, hb0, hws0, _, _⟩ := dumpsElems_head (y :: ys) b hctail (by simp) hbb
          rw [show ((x, ',' :: ' ' :: (b ++ ']' :: rest)).2).dropWhile isWs
              = ',' :: ' ' :: (b ++ ']' :: rest) from rfl]
          simp only []
          rw [show (' ' :: (b ++ ']' :: rest)).dropWhile isWs = (b ++ ']' :: rest).dropWhile isWs
              from rfl]
          rw [hb0, List.cons_append, List.dropWhile_cons_of_neg (by simp [hws0]),
            ← List.cons_append, ← hb0]
          have hQ := ihQ (y :: ys) b (acc ++ [x]) rest hctail (by simp) hbb
            (by simp only [pweightList] at hw ⊢; omega)
          rw [hQ]
          simp
    · -- object members
      intro es out acc rest hc hne hd hw
      cases es with
      | nil => exact absurd rfl hne
      | cons e es' =>
        obtain ⟨k, v⟩ := e
        have hks : ∃ ks, k = PyVal.str ks := by
          simp only [canonEntriesB, Bool.and_eq_true] at hc
          cases k with
          | str ks => exact ⟨ks, rfl⟩
          | none => simpa using hc.1.1
          | bool b => simpa using hc.1.1
          | int n => simpa using hc.1.1
          | tuple xs => simpa using hc.1.1
          | list xs => simpa using hc.1.1
          | dict es2 => simpa using hc.1.1
          | xml t => simpa using hc.1.1
        obtain ⟨ks, rfl⟩ := hks
        have hcv : canonB v = true := by
          simp only [canonEntriesB, Bool.and_eq_true] at hc
          exact hc.1.2
        cases es' with
        | nil =>
          have hsplit : ∃ vs, dumpsVal v = some vs ∧
              out = quoteString ks ++ ':' :: ' ' :: vs := by
            rw [show dumpsEntries [(PyVal.str ks, v)]
                = (dumpsVal v).bind (fun vs => some (quoteString ks ++ ':' :: ' ' :: vs))
                from by cases hv : dumpsVal v <;>
                  simp [dumpsEntries, dumpsKey, hv, bind, Option.bind]] at hd
            cases hv : dumpsVal v with
            | none => rw [hv] at hd; simp at hd
            | some vs =>
              rw [hv] at hd
              exact ⟨vs, rfl, by simpa using hd.symm⟩
          obtain ⟨vs, hv, hout⟩ := hsplit
          subst hout
          obtain ⟨cv, csv, hv0, hwsv, _, _⟩ := dumpsVal_head v vs hcv hv
          have hshape : (quoteString ks ++ ':' :: ' ' :: vs) ++ '\x7d' :: rest
              = '"' :: (escapeString ks.data ++ '"' :: (':' :: ' ' :: (vs ++ '\x7d' :: rest))) := by
            simp [quoteString]
          rw [hshape]
          rw [show parseJsonMembers (fuel + 1)
              ('"' :: (escapeString ks.data ++ '"' :: (':' :: ' ' :: (vs ++ '\x7d' :: rest)))) acc
              = (parseStringBody ((escapeString ks.data ++ '"' :: (':' :: ' ' :: (vs ++ '\x7d' :: rest))).length + 1)
                  (escapeString ks.data ++ '"' :: (':' :: ' ' :: (vs ++ '\x7d' :: rest)))).bind
                  (fun p =>
                    match (p.2).dropWhile isWs with
                    | ':' :: r2 =>
                      (parseJsonVal fuel (r2.dropWhile isWs)).bind fun q =>
                        match (q.2).dropWhile isWs with
                        | ',' :: r5 => parseJsonMembers fuel (r5.dropWhile isWs)
                            (acc ++ [(.str (String.mk p.1), q.1)])
                        | '\x7d' :: r5 => some (.dict (acc ++ [(.str (String.mk p.1), q.1)]), r5)
                        | _ => Option.none
                    | _ => Option.none) from rfl]
          rw [parseStringBody_quote ks (':' :: ' ' :: (vs ++ '\x7d' :: rest))]
          simp only [Option.some_bind]
          rw [show ((ks.data, ':' :: ' ' :: (vs ++ '\x7d' :: rest)).2).dropWhile isWs
              = ':' :: ' ' :: (vs ++ '\x7d' :: rest) from rfl]
          simp only []
          rw [show (' ' :: (vs ++ '\x7d' :: rest)).dropWhile isWs
              = (vs ++ '\x7d' :: rest).dropWhile isWs from rfl]
          rw [hv0, List.cons_append, List.dropWhile_cons_of_neg (by simp [hwsv]),
            ← List.cons_append, ← hv0]
          have hP := ihP v vs ('\x7d' :: rest) hcv hv
            (by simp only [pweightEntries] at hw; omega) rfl
          rw [hP]
          rfl
        | cons m ms =>
          have hsplit : ∃ vs b, dumpsVal v = some vs ∧ dumpsEntries (m :: ms) = some b ∧
              out = quoteString ks ++ ':' :: ' ' :: vs ++ ',' :: ' ' :: b := by
            rw [show dumpsEntries ((PyVal.str ks, v) :: m :: ms)
                = (dumpsVal v).bind (fun vs => (dumpsEntries (m :: ms)).bind
                    (fun b => some (quoteString ks ++ ':' :: ' ' :: vs ++ ',' :: ' ' :: b)))
                from by
                  cases hv : dumpsVal v <;>
                    cases hbb : dumpsEntries (m :: ms) <;>
                      simp [dumpsEntries, dumpsKey, hv, hbb, bind, Option.bind]] at hd
            cases hv : dumpsVal v with
            | none => rw [hv] at hd; simp at hd
            | some vs =>
              rw [hv] at hd
              cases hbb : dumpsEntries (m :: ms) with
              | none => rw [hbb] at hd; simp at hd
              | some b =>
                rw [hbb] at hd
                exact ⟨vs, b, rfl, rfl, by simpa using hd.symm⟩
          obtain ⟨vs, b, hv, hbb, hout⟩ := hsplit
          subst hout
          have hctail : canonEntriesB (m :: ms) = true := by
            simp only [canonEntriesB, Bool.and_eq_true] at hc ⊢
            exact hc.2
          obtain ⟨cv, csv, hv0, hwsv, _, _⟩ := dumpsVal_head v vs hcv hv
          obtain ⟨csb, hb0⟩ := dumpsEntries_head (m :: ms) b hctail (by simp) hbb
          have hshape : (quoteString ks ++ ':' :: ' ' :: vs ++ ',' :: ' ' :: b) ++ '\x7d' :: rest
              = '"' :: (escapeString ks.data ++ '"' ::
                  (':' :: ' ' :: (vs ++ ',' :: ' ' :: (b ++ '\x7d' :: rest)))) := by
            simp [quoteString]
          rw [hshape]
          rw [show parseJsonMembers (fuel + 1)
              ('"' :: (escapeString ks.data ++ '"' ::
                (':' :: ' ' :: (vs ++ ',' :: ' ' :: (b ++ '\x7d' :: rest))))) acc
              = (parseStringBody ((escapeString ks.data ++ '"' ::
                    (':' :: ' ' :: (vs ++ ',' :: ' ' :: (b ++ '\x7d' :: rest)))).length + 1)
                  (escapeString ks.data ++ '"' ::
                    (':' :: ' ' :: (vs ++ ',' :: ' ' :: (b ++ '\x7d' :: rest))))).bind
                  (fun p =>
                    match (p.2).dropWhile isWs with
                    | ':' :: r2 =>
                      (parseJsonVal fuel (r2.dropWhile isWs)).bind fun q =>
                        match (q.2).dropWhile isWs with
                        | ',' :: r5 => parseJsonMembers fuel (r5.dropWhile isWs)
                            (acc ++ [(.str (String.mk p.1), q.1)])
                        | '\x7d' :: r5 => some (.dict (acc ++ [(.str (String.mk p.1), q.1)]), r5)
                        | _ => Option.none
                    | _ => Option.none) from rfl]
          rw [parseStringBody_quote ks (':' :: ' ' :: (vs ++ ',' :: ' ' :: (b ++ '\x7d' :: rest)))]
          simp only [Option.some_bind]
          rw [show ((ks.data, ':' :: ' ' :: (vs ++ ',' :: ' ' :: (b ++ '\x7d' :: rest))).2).dropWhile isWs
              = ':' :: ' ' :: (vs ++ ',' :: ' ' :: (b ++ '\x7d' :: rest)) from rfl]
          simp only []
          rw [show (' ' :: (vs ++ ',' :: ' ' :: (b ++ '\x7d' :: rest))).dropWhile isWs
              = (vs ++ ',' :: ' ' :: (b ++ '\x7d' :: rest)).dropWhile isWs from rfl]
          rw [hv0, List.cons_append, List.dropWhile_cons_of_neg (by simp [hwsv]),
            ← List.cons_append, ← hv0]
          have hP := ihP v vs (',' :: ' ' :: (b ++ '\x7d' :: rest)) hcv hv
            (by simp only [pweightEntries] at hw; omega) rfl
          rw [hP]
          simp only [Option.some_bind]
          rw [show ((v, ',' :: ' ' :: (b ++ '\x7d' :: rest)).2).dropWhile isWs
              = ',' :: ' ' :: (b ++ '\x7d' :: rest) from rfl]
          simp only []
          rw [show (' ' :: (b ++ '\x7d' :: rest)).dropWhile isWs
              = (b ++ '\x7d' :: rest).dropWhile isWs from rfl]
          rw [hb0, List.cons_append,
            List.dropWhile_cons_of_neg (by simp [isWs]), ← List.cons_append, ← hb0]
          have hR := ihR (m :: ms) b (acc ++ [(PyVal.str ks, v)]) rest hctail (by simp) hbb
            (by simp only [pweightEntries] at hw ⊢; omega)
          rw [hR]
          simp

/-- The parser fuel a value needs is bounded by the length of its printed
form (each fuel unit corresponds to at least one printed character). -/
theorem dumps_weight_le :
    ∀ k : Nat,
      (∀ (v : PyVal) (out : List Char), sizeOf v ≤ k → dumpsVal v = some out →
        pweight v ≤ out.length) ∧
      (∀ (xs : List PyVal) (out : List Char), sizeOf xs ≤ k → xs ≠ [] →
        dumpsElems xs = some out → pweightList xs ≤ out.length + 1) ∧
      (∀ (es : List (PyVal × PyVal)) (out : List Char), sizeOf es ≤ k → es ≠ [] →
        dumpsEntries es = some out → pweightEntries es ≤ out.length + 1) := by
  intro k
  induction k with
  | zero =>
    refine ⟨?_, ?_, ?_⟩
    · intro v out hs _
      exfalso
      cases v <;> simp at hs
    · intro xs out hs hne _
      exfalso
      cases xs with
      | nil => exact hne rfl
      | cons x l => simp at hs
    · intro es out hs hne _
      exfalso
      cases es with
      | nil => exact hne rfl
      | cons e l => simp at hs
  | succ k ih =>
    obtain ⟨ihP, ihQ, ihR⟩ := ih
    refine ⟨?_, ?_, ?_⟩
    · intro v out hs hd
      cases v with
      | none =>
        rw [show dumpsVal .none = some ['n', 'u', 'l', 'l'] from rfl,
          Option.some.injEq] at hd
        rw [← hd]
        simp [pweight]
      | bool b =>
        cases b <;>
          (first
            | (rw [show dumpsVal (.bool true) = some ['t', 'r', 'u', 'e'] from rfl,
                Option.some.injEq] at hd
               rw [← hd]; simp [pweight])
            | (rw [show dumpsVal (.bool false) = some ['f', 'a', 'l', 's', 'e'] from rfl,
                Option.some.injEq] at hd
               rw [← hd]; simp [pweight]))
      | int n =>
        rw [show dumpsVal (.int n) = some (intRepr n) from rfl, Option.some.injEq] at hd
        rw [← hd]
        have hne : intRepr n ≠ [] := by
          cases n with
          | ofNat m => exact natRepr_ne_nil m
          | negSucc m => simp [intRepr]
        cases hi : intRepr n with
        | nil => exact absurd hi hne
        | cons a l => simp [pweight, hi]
      | str s =>
        rw [show dumpsVal (.str s) = some (quoteString s) from rfl, Option.some.injEq] at hd
        rw [← hd]
        simp [pweight, quoteString]
      | tuple xs =>
        rw [show dumpsVal (.tuple xs)
            = (dumpsElems xs).bind (fun body => some ('[' :: body ++ [']'])) from rfl] at hd
        cases hb : dumpsElems xs with
        | none => rw [hb] at hd; simp at hd
        | some body =>
          rw [hb] at hd
          have hout : out = '[' :: body ++ [']'] := by simpa using hd.symm
          subst hout
          simp [pweight]
      | xml t =>
        rw [show dumpsVal (.xml t) = Option.none from rfl] at hd
        simp at hd
      | list xs =>
        rw [show dumpsVal (.list xs)
            = (dumpsElems xs).bind (fun body => some ('[' :: body ++ [']'])) from rfl] at hd
        cases hb : dumpsElems xs with
        | none => rw [hb] at hd; simp at hd
        | some body =>
          rw [hb] at hd
          have hout : out = '[' :: body ++ [']'] := by simpa using hd.symm
          subst hout
          cases xs with
          | nil =>
            simp [pweight, pweightList]
          | cons x l =>
            have hsx : sizeOf (x :: l) ≤ k := by
              simp at hs ⊢
              omega
            have := ihQ (x :: l) body hsx (by simp) hb
            simp only [pweight, List.length_append, List.length_cons]
            omega
      | dict es =>
        rw [show dumpsVal (.dict es)
            = (dumpsEntries es).bind (fun body => some ('\x7b' :: body ++ ['\x7d'])) from rfl] at hd
        cases hb : dumpsEntries es with
        | none => rw [hb] at hd; simp at hd
        | some body =>
          rw [hb] at hd
          have hout : out = '\x7b' :: body ++ ['\x7d'] := by simpa using hd.symm
          subst hout
          cases es with
          | nil =>
            simp [pweight, pweightEntries]
          | cons e l =>
            have hse : sizeOf (e :: l) ≤ k := by
              simp at hs ⊢
              omega
            have := ihR (e :: l) body hse (by simp) hb
            simp only [pweight, List.length_append, List.length_cons]
            omega
    · intro xs out hs hne hd
      cases xs with
      | nil => exact absurd rfl hne
      | cons x xs' =>
        cases xs' with
        | nil =>
          have hdx : dumpsVal x = some out := by simpa [dumpsElems] using hd
          have hsx : sizeOf x ≤ k := by simp at hs; omega
          have := ihP x out hsx hdx
          simp only [pweightList]
          omega
        | cons y ys =>
          have hsplit : ∃ a b, dumpsVal x = some a ∧ dumpsElems (y :: ys) = some b ∧
              out = a ++ ',' :: ' ' :: b := by
            rw [show dumpsElems (x :: y :: ys)
                = (dumpsVal x).bind (fun a => (dumpsElems (y :: ys)).bind
                    (fun b => some (a ++ ',' :: ' ' :: b))) from rfl] at hd
            cases ha : dumpsVal x with
            | none => rw [ha] at hd; simp at hd
            | some a =>
              rw [ha] at hd
              cases hbb : dumpsElems (y :: ys) with
              | none => rw [hbb] at hd; simp at hd
              | some b =>
                rw [hbb] at hd
                exact ⟨a, b, rfl, rfl, by simpa using hd.symm⟩
          obtain ⟨a, b, ha, hbb, hout⟩ := hsplit
          subst hout
          have hsx : sizeOf x ≤ k := by simp at hs; omega
          have hst : sizeOf (y :: ys) ≤ k := by simp at hs ⊢; omega
          have h1 := ihP x a hsx ha
          have h2 := ihQ (y :: ys) b hst (by simp) hbb
          simp only [pweightList] at h2 ⊢
          simp only [List.length_append, List.length_cons]
          omega
    · intro es out hs hne hd
      cases es with
      | nil => exact absurd rfl hne
      | cons e es' =>
        obtain ⟨kk, v⟩ := e
        cases es' with
        | nil =>
          have hsplit : ∃ ks vs, dumpsKey kk = some ks ∧ dumpsVal v = some vs ∧
              out = ks ++ ':' :: ' ' :: vs := by
            rw [show dumpsEntries [(kk, v)]
                = (dumpsKey kk).bind (fun ks => (dumpsVal v).bind
                    (fun vs => some (ks ++ ':' :: ' ' :: vs)))
                from by
                  cases hk : dumpsKey kk <;> cases hv : dumpsVal v <;>
                    simp [dumpsEntries, hk, hv, bind, Option.bind]] at hd
            cases hk : dumpsKey kk with
            | none => rw [hk] at hd; simp at hd
            | some ks =>
              rw [hk] at hd
              cases hv : dumpsVal v with
              | none => rw [hv] at hd; simp at hd
              | some vs =>
                rw [hv] at hd
                exact ⟨ks, vs, rfl, rfl, by simpa using hd.symm⟩
          obtain ⟨ks, vs, _, hv, hout⟩ := hsplit
          subst hout
          have hsv : sizeOf v ≤ k := by simp at hs; omega
          have := ihP v vs hsv hv
          simp only [pweightEntries]
          simp only [List.length_append, List.length_cons]
          omega
        | cons m ms =>
          have hsplit : ∃ ks vs b, dumpsKey kk = some ks ∧ dumpsVal v = some vs ∧
              dumpsEntries (m :: ms) = some b ∧
              out = ks ++ ':' :: ' ' :: vs ++ ',' :: ' ' :: b := by
            rw [show dumpsEntries ((kk, v) :: m :: ms)
                = (dumpsKey kk).bind (fun ks => (dumpsVal v).bind
                    (fun vs => (dumpsEntries (m :: ms)).bind
                      (fun b => some (ks ++ ':' :: ' ' :: vs ++ ',' :: ' ' :: b))))
                from by
                  cases hk : dumpsKey kk <;> cases hv : dumpsVal v <;>
                    cases hbb : dumpsEntries (m :: ms) <;>
                      simp [dumpsEntries, hk, hv, hbb, bind, Option.bind]] at hd
            cases hk : dumpsKey kk with
            | none => rw [hk] at hd; simp at hd
            | some ks =>
              rw [hk] at hd
              cases hv : dumpsVal v with
              | none => rw [hv] at hd; simp at hd
              | some vs =>
                rw [hv] at hd
                cases hbb : dumpsEntries (m :: ms) with
                | none => rw [hbb] at hd; simp at hd
                | some b =>
                  rw [hbb] at hd
                  exact ⟨ks, vs, b, rfl, rfl, rfl, by simpa using hd.symm⟩
          obtain ⟨ks, vs, b, _, hv, hbb, hout⟩ := hsplit
          subst hout
          have hsv : sizeOf v ≤ k := by simp at hs; omega
          have hst : sizeOf (m :: ms) ≤ k := by simp at hs ⊢; omega
          have h1 := ihP v vs hsv hv
          have h2 := ihR (m :: ms) b hst (by simp) hbb
          simp only [pweightEntries] at h2 ⊢
          simp only [List.length_append, List.length_cons]
          omega

/-- `json.loads` inverts `json.dumps` on canonical values. -/
theorem json_loads_dumps (v : PyVal) (out : List Char) (hc : canonB v = true)
    (hd : dumpsVal v = some out) :
    json_loads (String.mk out) = some v := by
  obtain ⟨c0, cs0, hcons, hws0, _, _⟩ := dumpsVal_head v out hc hd
  have hw : pweight v ≤ out.length := (dumps_weight_le (sizeOf v)).1 v out (le_refl _) hd
  have hparse := (parseJson_dumps (out.length + 1)).1 v out [] hc hd (by omega) rfl
  rw [List.append_nil] at hparse
  simp only [json_loads]
  rw [hcons, List.dropWhile_cons_of_neg (by simp [hws0]), ← hcons, hparse]
  rfl

/-! ## Claim C7 -/

/-- C7: for every JSON-capable event holding canonical data (the form the
JSON family's setter always stores, in which Decimal inputs have already
been normalized by the first canonicalization — the embedding's canonical
values are the integer fragment, floats being outside the model),
serializing with `data_string` and re-assigning the resulting text as
`data` reproduces exactly the stored canonical value: the event is
unchanged. -/
theorem c7_json_round_trip (e : Evt) (hfam : convFamily e.cls = .json)
    (hc : canonB e.data = true) (s : String) (hs : data_string e = .ok s) :
    setData e (.str s) = .ok e := by
  have hdump : json_dumps e.data = some s := by
    unfold data_string at hs
    rw [hfam] at hs
    cases hj : json_dumps e.data with
    | none => rw [hj] at hs; exact absurd hs (by simp)
    | some s' =>
      rw [hj] at hs
      simpa using hs
  obtain ⟨out, hout, hsmk⟩ : ∃ out, dumpsVal e.data = some out ∧ s = String.mk out := by
    unfold json_dumps at hdump
    cases ho : dumpsVal e.data with
    | none => rw [ho] at hdump; simp at hdump
    | some out =>
      rw [ho] at hdump
      exact ⟨out, rfl, by simpa using hdump.symm⟩
  have hloads : json_loads s = some e.data := by
    rw [hsmk]
    exact json_loads_dumps e.data out hc hout
  unfold setData
  rw [hfam]
  rw [show conversion_methods Family.json (.str s)
      = (match json_loads s with
          | some v => Except.ok v
          | Option.none => Except.error PyError.valueError) from rfl]
  rw [hloads]

/-- C7 witness: a concrete `JSONEvent` whose dict payload round-trips
through its own `data_string` text. -/
theorem c7_json_round_trip_witness :
    data_string jsonSample = .ok "\x7b\"a\": 1, \"b\": [true, null]\x7d" ∧
    setData jsonSample (.str "\x7b\"a\": 1, \"b\": [true, null]\x7d") = .ok jsonSample :=
  ⟨rfl, c7_json_round_trip jsonSample rfl rfl _ rfl⟩

end Compysition
